import Mathlib

/-!
# cutx: field-specification parser and line processor

A shallow embedding of `main.go` (package `main` of `arcimboldo/cutx`) together with the
parts of the Go standard library it calls (`strings.Split`, `strings.Join`,
`strings.ReplaceAll`, `strings.TrimSpace`, `strconv.Atoi`, `regexp.FindStringSubmatch` for
the one pattern the program compiles, `bufio.Reader.ReadString`).

Conventions of the embedding:

* a Go `string` is a sequence of bytes; it is a `List Char` in which every element stands
  for one byte (the byte `b` is `Char.ofNat b`);
* a Go `int` is 64 bits wide; values are `Int`, and `math.MaxInt` is `2 ^ 63 - 1`. The
  program computes `v - 1` for a result `v` of `strconv.Atoi` on a string of digits
  (so `0 <= v`) and `i + 1` for an index `i < len(fields)`: neither can overflow, and the
  embedding uses unbounded integer arithmetic for them;
* `log.Fatalf` and run-time panics are `Except.error` results;
* the shell (`exec.Command("sh", "-c", cmd).Output()`) is an oracle `sh` from the command
  line to `some stdout`, or `none` when `Output` returns a non-nil error;
* loops that are not structurally recursive carry a fuel argument; the callers pass enough
  fuel, and running out of it is a distinguished fault that the theorems rule out.
-/

namespace Cutx

/-- A Go string: a sequence of bytes, one `Char` per byte. -/
abbrev GoString := List Char

/-- The constant `math.MaxInt` on a 64-bit platform, `2 ^ 63 - 1`. -/
def MaxInt : Int := 9223372036854775807

/-- The constant `endField = math.MaxInt` (main.go line 43). -/
def endField : Int := MaxInt

/-- The struct `FieldMapper` (main.go lines 46-50). -/
structure FieldMapper where
  start : Int
  «end» : Int
  cmd : GoString
deriving DecidableEq, Repr

/-- The ways a run of the program stops abnormally. -/
inductive Fault where
  /-- Failure `log.Fatalf("Unable to parse -f flag ...")`, line 63: the token does not match. -/
  | fatalNoMatch (f : GoString)
  /-- Failure `log.Fatalf("Invalid value for flag -f ...")`, line 71: more than one dash. -/
  | fatalNotRange (index : GoString)
  /-- Failure `log.Fatalf("Unable to convert ... into an integer")`, lines 78 and 87. -/
  | fatalAtoi (s : GoString)
  /-- A run-time panic: index `i` out of range for a slice of length `len`. -/
  | indexOutOfRange (i : Int) (len : Nat)
  /-- The embedding ran out of fuel (never happens with the fuel the callers pass). -/
  | outOfFuel
deriving DecidableEq, Repr

instance instDecidableEqExcept {ε α : Type} [DecidableEq ε] [DecidableEq α] :
    DecidableEq (Except ε α)
  | .ok a, .ok b =>
    if h : a = b then isTrue (congrArg Except.ok h)
    else isFalse (fun h2 => h (Except.ok.inj h2))
  | .error a, .error b =>
    if h : a = b then isTrue (congrArg Except.error h)
    else isFalse (fun h2 => h (Except.error.inj h2))
  | .ok _, .error _ => isFalse (fun h => Except.noConfusion h)
  | .error _, .ok _ => isFalse (fun h => Except.noConfusion h)

/-! ## The Go standard library -/

/-- The byte `c` lies in the closed range `lo..hi`. -/
def inRange (lo hi : Nat) (c : Char) : Bool := decide (lo ≤ c.toNat) && decide (c.toNat ≤ hi)

/-- Width in bytes of the first UTF-8 sequence of `s`, as `utf8.DecodeRuneInString` reports
it: the length of a well-formed encoding, `1` for a byte that starts none, `0` for the empty
string. -/
def runeSize : GoString → Nat
  | [] => 0
  | s0 :: rest =>
    let b := s0.toNat
    if b < 0xC2 then 1
    else if b < 0xE0 then
      match rest with
      | s1 :: _ => if inRange 0x80 0xBF s1 then 2 else 1
      | _ => 1
    else if b < 0xF0 then
      let lo := if b = 0xE0 then 0xA0 else 0x80
      let hi := if b = 0xED then 0x9F else 0xBF
      match rest with
      | s1 :: s2 :: _ => if inRange lo hi s1 && inRange 0x80 0xBF s2 then 3 else 1
      | _ => 1
    else if b < 0xF5 then
      let lo := if b = 0xF0 then 0x90 else 0x80
      let hi := if b = 0xF4 then 0x8F else 0xBF
      match rest with
      | s1 :: s2 :: s3 :: _ =>
        if inRange lo hi s1 && inRange 0x80 0xBF s2 && inRange 0x80 0xBF s3 then 4 else 1
      | _ => 1
    else 1

/-- The loop of `strings.explode(s, -1)`: one piece per UTF-8 sequence. -/
def explodeLoop : Nat → GoString → List GoString
  | 0, _ => []
  | fuel + 1, s =>
    if s = [] then [] else s.take (runeSize s) :: explodeLoop fuel (s.drop (runeSize s))

/-- The function `strings.explode(s, -1)`. -/
def explode (s : GoString) : List GoString := explodeLoop s.length s

/-- The function `utf8.RuneCountInString`. -/
def RuneCountInString (s : GoString) : Nat := (explode s).length

/-- The function `strings.HasPrefix(s, p)`. -/
def startsWith : GoString → GoString → Bool
  | _, [] => true
  | [], _ :: _ => false
  | c :: s, d :: p => c == d && startsWith s p

/-- The function `strings.Index(s, substr)`: the offset of the first instance of `substr`
in `s`; `none` stands for `-1`. -/
def Index : GoString → GoString → Option Nat
  | [], substr => if substr = [] then some 0 else none
  | c :: s, substr =>
    if startsWith (c :: s) substr then some 0 else (Index s substr).map (· + 1)

/-- The loop of `strings.Count` for a non-empty `substr`: non-overlapping instances. -/
def countLoop (substr : GoString) : Nat → GoString → Nat
  | 0, _ => 0
  | fuel + 1, s =>
    match Index s substr with
    | none => 0
    | some i => 1 + countLoop substr fuel (s.drop (i + substr.length))

/-- The function `strings.Count(s, substr)`. -/
def Count (s substr : GoString) : Nat :=
  if substr = [] then RuneCountInString s + 1 else countLoop substr s.length s

/-- The loop of `strings.genSplit` for a non-empty separator; `n` bounds the number of
pieces cut off before the remainder is stored as the last piece. -/
def splitLoop (sep : GoString) : Nat → GoString → List GoString
  | 0, s => [s]
  | n + 1, s =>
    match Index s sep with
    | none => [s]
    | some m => s.take m :: splitLoop sep n (s.drop (m + sep.length))

/-- The function `strings.Split(s, sep)`, that is `genSplit(s, sep, 0, -1)`. -/
def Split (s sep : GoString) : List GoString :=
  if sep = [] then explode s
  else splitLoop sep (min (Count s sep + 1) (s.length + 1) - 1) s

/-- The function `strings.Join(elems, sep)`. -/
def Join : List GoString → GoString → GoString
  | [], _ => []
  | [x], _ => x
  | x :: y :: rest, sep => x ++ sep ++ Join (y :: rest) sep

/-- The replacement loop of `strings.Replace` for a non-empty `old`, `k` replacements. -/
def replaceLoop (old new : GoString) : Nat → GoString → GoString
  | 0, s => s
  | k + 1, s =>
    match Index s old with
    | none => s
    | some j => s.take j ++ new ++ replaceLoop old new k (s.drop (j + old.length))

/-- The replacement loop of `strings.Replace` for an empty `old`, after its first step:
`new` is written after each of the next `k` UTF-8 sequences. -/
def replaceEmptyLoop (new : GoString) : Nat → GoString → GoString
  | 0, s => s
  | k + 1, s => s.take (runeSize s) ++ new ++ replaceEmptyLoop new k (s.drop (runeSize s))

/-- The function `strings.ReplaceAll(s, old, new)`, that is `Replace(s, old, new, -1)`. -/
def ReplaceAll (s old new : GoString) : GoString :=
  if old = new then s
  else
    let m := Count s old
    if m = 0 then s
    else if old = [] then new ++ replaceEmptyLoop new (m - 1) s
    else replaceLoop old new m s

/-- The UTF-8 encodings of the runes for which `unicode.IsSpace` holds: tab, line feed,
vertical tab, form feed, carriage return, space, U+0085, U+00A0, U+1680, U+2000..U+200A,
U+2028, U+2029, U+202F, U+205F and U+3000. -/
def spaceEncodings : List GoString :=
  [['\t'], ['\n'], [Char.ofNat 0x0B], [Char.ofNat 0x0C], ['\r'], [' '],
   [Char.ofNat 0xC2, Char.ofNat 0x85], [Char.ofNat 0xC2, Char.ofNat 0xA0],
   [Char.ofNat 0xE1, Char.ofNat 0x9A, Char.ofNat 0x80]]
  ++ (List.range 11).map (fun k => [Char.ofNat 0xE2, Char.ofNat 0x80, Char.ofNat (0x80 + k)])
  ++ [[Char.ofNat 0xE2, Char.ofNat 0x80, Char.ofNat 0xA8],
      [Char.ofNat 0xE2, Char.ofNat 0x80, Char.ofNat 0xA9],
      [Char.ofNat 0xE2, Char.ofNat 0x80, Char.ofNat 0xAF],
      [Char.ofNat 0xE2, Char.ofNat 0x81, Char.ofNat 0x9F],
      [Char.ofNat 0xE3, Char.ofNat 0x80, Char.ofNat 0x80]]

/-- Width of the white-space rune that `s` starts with, `0` when it starts with none. -/
def leadingSpace (s : GoString) : Nat :=
  match spaceEncodings.find? (fun e => startsWith s e) with
  | some e => e.length
  | none => 0

/-- Width of the white-space rune that `s` ends with, `0` when it ends with none. -/
def trailingSpace (s : GoString) : Nat :=
  match spaceEncodings.find? (fun e => startsWith s.reverse e.reverse) with
  | some e => e.length
  | none => 0

/-- The function `strings.TrimLeftFunc(s, unicode.IsSpace)`. -/
def trimLeftLoop : Nat → GoString → GoString
  | 0, s => s
  | fuel + 1, s =>
    if leadingSpace s = 0 then s else trimLeftLoop fuel (s.drop (leadingSpace s))

/-- The function `strings.TrimRightFunc(s, unicode.IsSpace)`. -/
def trimRightLoop : Nat → GoString → GoString
  | 0, s => s
  | fuel + 1, s =>
    if trailingSpace s = 0 then s
    else trimRightLoop fuel (s.take (s.length - trailingSpace s))

/-- The function `strings.TrimSpace(s)`: `s` without leading and trailing white space. -/
def TrimSpace (s : GoString) : GoString :=
  let t := trimLeftLoop s.length s
  trimRightLoop t.length t

/-- The digit loop of `strconv.Atoi`: `n = n*10 + int(ch - '0')`, a syntax error (`none`)
at a byte that is not a decimal digit. -/
def atoiDigits : GoString → Nat → Option Nat
  | [], n => some n
  | ch :: rest, n =>
    if ch.isDigit then atoiDigits rest (n * 10 + (ch.toNat - '0'.toNat)) else none

/-- The function `strconv.Atoi(s)` for a 64-bit `int`; `none` stands for a non-nil error
(`ErrSyntax` for an empty or malformed numeral, `ErrRange` for a value outside
`-2^63 .. 2^63 - 1`). -/
def Atoi (s : GoString) : Option Int :=
  let neg := s.head? = some '-'
  let ds := if s.head? = some '-' ∨ s.head? = some '+' then s.drop 1 else s
  if ds = [] then none
  else
    match atoiDigits ds 0 with
    | none => none
    | some n =>
      if neg then (if (n : Int) ≤ MaxInt + 1 then some (-(n : Int)) else none)
      else (if (n : Int) ≤ MaxInt then some (n : Int) else none)

/-- Membership in the character class `[0-9-]` of the pattern. -/
def isIndexChar (c : Char) : Bool := c.isDigit || c == '-'

/-- A match of `([0-9-]+)(=(.*))?` that starts at the head of `s` (which is in `[0-9-]`):
group 1 is the longest run of class characters; when `=` follows, group 2 is `=` and the
rest of `s` up to the first line feed (`.` does not match a line feed), group 3 that rest;
otherwise groups 2 and 3 are empty. The result is `[groups[0], ..., groups[3]]`. -/
def matchHere (s : GoString) : List GoString :=
  let g1 := s.takeWhile isIndexChar
  match s.dropWhile isIndexChar with
  | '=' :: tl =>
    let g3 := tl.takeWhile (fun c => c != '\n')
    [g1 ++ '=' :: g3, g1, '=' :: g3, g3]
  | _ => [g1, g1, [], []]

/-- The call `fre.FindStringSubmatch(f)` for `fre = ([0-9-]+)(=(.*))?` (lines 55 and 61):
the leftmost match (the pattern is not anchored), `[]` when there is none. -/
def FindStringSubmatch : GoString → List GoString
  | [] => []
  | c :: rest => if isIndexChar c then matchHere (c :: rest) else FindStringSubmatch rest

/-! ## The program -/

/-- The body of the loop of `parseFields` (lines 61-92) for one token `f`. -/
def parseToken (f : GoString) : Except Fault FieldMapper :=
  match FindStringSubmatch f with
  | [] => .error (.fatalNoMatch f)
  | [_, g1, _, g3] =>
    let n := Split g1 ['-']
    if n.length > 2 then .error (.fatalNotRange g1)
    else
      match n with
      | [] => .error (.indexOutOfRange 0 0)
      | n0 :: tl =>
        match Atoi n0 with
        | none => .error (.fatalAtoi n0)
        | some v =>
          let start := v - 1
          match tl with
          | [] => .ok { start := start, «end» := start, cmd := g3 }
          | n1 :: _ =>
            if n1 = [] then .ok { start := start, «end» := endField, cmd := g3 }
            else
              match Atoi n1 with
              | none => .error (.fatalAtoi n1)
              | some e => .ok { start := start, «end» := e - 1, cmd := g3 }
  | _ => .error (.indexOutOfRange 3 0)

/-- The loop `for _, f := range strings.Split(*fieldsFlag, ",")` of `parseFields`, with the
slice `fields` built so far. -/
def parseTokens : List GoString → List FieldMapper → Except Fault (List FieldMapper)
  | [], fields => .ok fields
  | f :: rest, fields =>
    match parseToken f with
    | .error e => .error e
    | .ok fm => parseTokens rest (fields ++ [fm])

/-- The function `parseFields` (lines 52-95), reading the flag `-f` from its argument. -/
def parseFields (fieldsFlag : GoString) : Except Fault (List FieldMapper) :=
  parseTokens (Split fieldsFlag [',']) []

/-- The function `runCommand` (lines 101-112) over the shell oracle `sh`. -/
def runCommand (sh : GoString → Option GoString) (cmd input : GoString) : GoString :=
  if cmd = [] then input
  else
    match sh (ReplaceAll cmd ['\x7b', '\x7d'] input) with
    | none => []
    | some out => TrimSpace out

/-- The slice access `fields[i]` with its bounds check. -/
def index (fields : List GoString) (i : Int) : Except Fault GoString :=
  if 0 ≤ i then
    match fields.get? i.toNat with
    | some f => .ok f
    | none => .error (.indexOutOfRange i fields.length)
  else .error (.indexOutOfRange i fields.length)

/-- The inner loop `for i := fm.start; i <= fm.end && i < len(fields); i++` (lines
153-156), from the current `i` and the slice `newline` built so far. -/
def mapperLoop (sh : GoString → Option GoString) (fm : FieldMapper) (fields : List GoString) :
    Nat → Int → List GoString → Except Fault (List GoString)
  | 0, _, _ => .error .outOfFuel
  | fuel + 1, i, newline =>
    if i ≤ fm.«end» ∧ i < (fields.length : Int) then
      match index fields i with
      | .error e => .error e
      | .ok f => mapperLoop sh fm fields fuel (i + 1) (newline ++ [runCommand sh fm.cmd f])
    else .ok newline

/-- The outer loop `for _, fm := range fms` (lines 152-157). -/
def mappersLoop (sh : GoString → Option GoString) (fields : List GoString) :
    List FieldMapper → List GoString → Except Fault (List GoString)
  | [], newline => .ok newline
  | fm :: rest, newline =>
    match mapperLoop sh fm fields (fields.length + 1) fm.start newline with
    | .error e => .error e
    | .ok newline2 => mappersLoop sh fields rest newline2

/-- The strip step (lines 141-143): `line[:len(line)-2]` when the line is longer than one
byte and ends with a line feed. -/
def stripNewline (line : GoString) : GoString :=
  if line.length > 1 ∧ line.getLast? = some '\n' then line.take (line.length - 2) else line

/-- Lines 144-159 for one line after the strip step: the argument of `fmt.Println`. -/
def processLine (sh : GoString → Option GoString) (sepFlag : GoString)
    (fms : List FieldMapper) (line : GoString) : Except Fault GoString :=
  let fields := Split line sepFlag
  match mappersLoop sh fields fms [] with
  | .error e => .error e
  | .ok newline => .ok (Join newline sepFlag)

/-- The call `r.ReadString(delim)` on the unread input: the bytes up to and including the
first `delim`, the input left, and whether the call returned `io.EOF` (the input ended
before a `delim`; the bytes read so far are returned with it). -/
def ReadString (delim : Char) : GoString → GoString × GoString × Bool
  | [] => ([], [], true)
  | c :: rest =>
    if c = delim then ([c], rest, false)
    else
      let r := ReadString delim rest
      (c :: r.1, r.2.1, r.2.2)

/-- What a run of the program leaves behind: the arguments of the `fmt.Println` calls in
order (each is written to the standard output followed by a line feed), and how it ended
(`none`: normal exit). -/
structure Run where
  printed : List GoString
  fault : Option Fault
deriving DecidableEq, Repr

/-- The loop `for true` of `main` (lines 132-160) on the unread input. -/
def readLoop (sh : GoString → Option GoString) (sepFlag : GoString) (fms : List FieldMapper) :
    Nat → GoString → List GoString → Run
  | 0, _, printed => { printed := printed, fault := some .outOfFuel }
  | fuel + 1, input, printed =>
    let r := ReadString '\n' input
    if r.2.2 then { printed := printed, fault := none }
    else
      match processLine sh sepFlag fms (stripNewline r.1) with
      | .error e => { printed := printed, fault := some e }
      | .ok out => readLoop sh sepFlag fms fuel r.2.1 (printed ++ [out])

/-- The function `main` (lines 114-161): the flags `-d` and `-f`, the bytes of the input
stream and the shell oracle determine the run. Read errors other than end of input are not
modelled. -/
def main (sh : GoString → Option GoString) (sepFlag fieldsFlag input : GoString) : Run :=
  match parseFields fieldsFlag with
  | .error e => { printed := [], fault := some e }
  | .ok fms => readLoop sh sepFlag fms (input.length + 1) input []

/-- The bytes written to the standard output by a run. -/
def Run.stdout (r : Run) : GoString :=
  (r.printed.map (fun l => l ++ ['\n'])).flatten

/-! ## Reference definitions used by the statements -/

/-- The inner loop of lines 153-156 with the call of `runCommand` left out: it records the
pair (command, field text) of every iteration instead of the command's result. -/
def selectLoop (fm : FieldMapper) (fields : List GoString) :
    Nat → Int → List (GoString × GoString) → Except Fault (List (GoString × GoString))
  | 0, _, _ => .error .outOfFuel
  | fuel + 1, i, sel =>
    if i ≤ fm.«end» ∧ i < (fields.length : Int) then
      match index fields i with
      | .error e => .error e
      | .ok f => selectLoop fm fields fuel (i + 1) (sel ++ [(fm.cmd, f)])
    else .ok sel

/-- The outer loop of lines 152-157 over `selectLoop`. -/
def selectAll (fields : List GoString) :
    List FieldMapper → List (GoString × GoString) → Except Fault (List (GoString × GoString))
  | [], sel => .ok sel
  | fm :: rest, sel =>
    match selectLoop fm fields (fields.length + 1) fm.start sel with
    | .error e => .error e
    | .ok sel2 => selectAll fields rest sel2

/-- The tail of `inputLines`: `cur` holds the bytes of the segment being read. -/
def inputLinesFrom : GoString → GoString → List GoString
  | [], cur => if cur = [] then [] else [cur]
  | c :: rest, cur =>
    if c = '\n' then (cur ++ [c]) :: inputLinesFrom rest [] else inputLinesFrom rest (cur ++ [c])

/-- The input lines in the sense of the specification: the segments of the input that end
with a line feed, followed by the final segment without one when it is not empty. -/
def inputLines (input : GoString) : List GoString := inputLinesFrom input []

/-- The reference slice of the specification for one mapper: the contiguous sub-list
`fs[start .. min(end, len(fs)-1)]`, bounds included, and the empty list when `start` exceeds
that bound. -/
def sliceRef (fs : List GoString) (fm : FieldMapper) : List GoString :=
  let hi := min fm.«end» ((fs.length : Int) - 1)
  if fm.start ≤ hi then (fs.drop fm.start.toNat).take (hi - fm.start + 1).toNat else []

/-- What `cut -f 1,2 -d X` prints for the line content `s`: `s` itself when it does not
contain the delimiter, otherwise its first two `X`-separated fields joined by `X`. The
first field is the text before the first `X`, the second field the text between the first
`X` and the next one (or the end of the line). -/
def cutFields12 (X : Char) (s : GoString) : GoString :=
  if X ∈ s then
    s.takeWhile (fun c => c != X) ++ [X] ++
      ((s.dropWhile (fun c => c != X)).drop 1).takeWhile (fun c => c != X)
  else s

/-- The (command, field text) pairs the specification selects for a line, in output order:
for each mapper in turn, its command paired with each field of its reference slice. -/
def selectedPairs (fs : List GoString) (fms : List FieldMapper) : List (GoString × GoString) :=
  (fms.map (fun fm => (sliceRef fs fm).map (fun f => (fm.cmd, f)))).flatten

/-! ## Lemmas about the library functions -/

theorem startsWith_iff (s p : GoString) : startsWith s p = true ↔ ∃ t, s = p ++ t := by
  induction p generalizing s with
  | nil => simp [startsWith]
  | cons d p ih =>
    cases s with
    | nil => simp [startsWith]
    | cons c s =>
      simp only [startsWith, Bool.and_eq_true, beq_iff_eq, ih, List.cons_append, List.cons.injEq]
      constructor
      · rintro ⟨h, t, ht⟩; exact ⟨t, h, ht⟩
      · rintro ⟨t, h, ht⟩; exact ⟨h, t, ht⟩

theorem Index_some (s sep : GoString) (m : Nat) (h : Index s sep = some m) :
    s = s.take m ++ sep ++ s.drop (m + sep.length) := by
  induction s generalizing m with
  | nil =>
    simp only [Index] at h
    split at h
    · next hs => subst hs; simp
    · cases h
  | cons c s ih =>
    simp only [Index] at h
    split at h
    · next hp =>
      obtain ⟨t, ht⟩ := (startsWith_iff _ _).1 hp
      cases h
      rw [ht]; simp
    · cases hI : Index s sep with
      | none => rw [hI] at h; cases h
      | some k =>
        rw [hI] at h
        simp only [Option.map_some', Option.some.injEq] at h
        subst h
        have := ih k hI
        simp only [List.take_succ_cons, List.cons_append]
        rw [show k + 1 + sep.length = (k + sep.length) + 1 by omega, List.drop_succ_cons]
        exact congrArg _ this

theorem splitLoop_ne_nil (sep : GoString) (n : Nat) (s : GoString) : splitLoop sep n s ≠ [] := by
  cases n with
  | zero => simp [splitLoop]
  | succ n =>
    simp only [splitLoop]
    split <;> simp

theorem Join_cons (x : GoString) (l : List GoString) (sep : GoString) (h : l ≠ []) :
    Join (x :: l) sep = x ++ sep ++ Join l sep := by
  cases l with
  | nil => exact absurd rfl h
  | cons y r => rfl

theorem Join_splitLoop (sep : GoString) (n : Nat) (s : GoString) :
    Join (splitLoop sep n s) sep = s := by
  induction n generalizing s with
  | zero => simp [splitLoop, Join]
  | succ n ih =>
    simp only [splitLoop]
    cases hI : Index s sep with
    | none => simp [Join]
    | some m =>
      simp only
      rw [Join_cons _ _ _ (splitLoop_ne_nil _ _ _), ih]
      exact (Index_some s sep m hI).symm

theorem splitLoop_length_le (sep : GoString) (n : Nat) (s : GoString) :
    (splitLoop sep n s).length ≤ n + 1 := by
  induction n generalizing s with
  | zero => simp [splitLoop]
  | succ n ih =>
    simp only [splitLoop]
    split
    · simp
    · next m _ => simp only [List.length_cons]; have := ih (s.drop (m + sep.length)); omega

theorem Join_Split (s sep : GoString) (h : sep ≠ []) : Join (Split s sep) sep = s := by
  simp only [Split, if_neg h]; exact Join_splitLoop _ _ _

theorem Split_ne_nil (s sep : GoString) (h : sep ≠ []) : Split s sep ≠ [] := by
  simp only [Split, if_neg h]; exact splitLoop_ne_nil _ _ _

theorem Split_length_le (s sep : GoString) (h : sep ≠ []) : (Split s sep).length ≤ s.length + 1 := by
  simp only [Split, if_neg h]
  have := splitLoop_length_le sep (min (Count s sep + 1) (s.length + 1) - 1) s
  omega

theorem digitChar_spec (m : Nat) (h : m < 10) :
    (Nat.digitChar m).isDigit = true ∧ (Nat.digitChar m).toNat - '0'.toNat = m := by
  interval_cases m <;> exact ⟨rfl, rfl⟩

theorem toDigitsCore_spec (fuel n : Nat) (ds : List Char) (h : n < fuel) :
    ∃ pre, Nat.toDigitsCore 10 fuel n ds = pre ++ ds ∧ pre ≠ [] ∧
      (∀ c ∈ pre, c.isDigit = true) ∧
      ∀ (t : GoString) (a : Nat),
        atoiDigits (pre ++ t) a = atoiDigits t (a * 10 ^ pre.length + n) := by
  induction fuel generalizing n ds with
  | zero => omega
  | succ fuel ih =>
    have hd := digitChar_spec (n % 10) (Nat.mod_lt _ (by decide))
    simp only [Nat.toDigitsCore]
    by_cases h0 : n / 10 = 0
    · rw [if_pos h0]
      refine ⟨[Nat.digitChar (n % 10)], rfl, by simp, by simpa using hd.1, ?_⟩
      intro t a
      have hn : n % 10 = n := Nat.mod_eq_of_lt (by omega)
      show atoiDigits (Nat.digitChar (n % 10) :: t) a = _
      simp only [atoiDigits, hd.1, if_true, hd.2, List.length_singleton, pow_one]
      rw [hn]
    · rw [if_neg h0]
      obtain ⟨pre, hpre, hne, hdig, hval⟩ := ih (n / 10) (Nat.digitChar (n % 10) :: ds)
        (by omega)
      refine ⟨pre ++ [Nat.digitChar (n % 10)], by simp [hpre], by simp, ?_, ?_⟩
      · intro c hc
        rcases List.mem_append.1 hc with h1 | h1
        · exact hdig c h1
        · simp only [List.mem_singleton] at h1; subst h1; exact hd.1
      · intro t a
        rw [List.append_assoc, hval]
        show atoiDigits (Nat.digitChar (n % 10) :: t) _ = _
        simp only [atoiDigits, hd.1, if_true, hd.2, List.length_append,
          List.length_singleton, pow_succ]
        congr 1
        have := Nat.div_add_mod n 10
        ring_nf
        ring_nf at this
        omega

theorem numeral_spec (N : Nat) :
    (Nat.repr N).toList ≠ [] ∧ (∀ c ∈ (Nat.repr N).toList, c.isDigit = true) ∧
      atoiDigits (Nat.repr N).toList 0 = some N := by
  obtain ⟨pre, hpre, hne, hdig, hval⟩ := toDigitsCore_spec (N + 1) N [] (by omega)
  have h : (Nat.repr N).toList = pre := by
    show Nat.toDigits 10 N = pre
    simp only [Nat.toDigits, hpre, List.append_nil]
  rw [h]
  refine ⟨hne, hdig, ?_⟩
  have := hval [] 0
  simpa [atoiDigits] using this

theorem isDigit_facts (c : Char) (h : c.isDigit = true) :
    isIndexChar c = true ∧ c ≠ '-' ∧ c ≠ '+' ∧ c ≠ ',' ∧ c ≠ '=' := by
  refine ⟨by simp [isIndexChar, h], ?_, ?_, ?_, ?_⟩ <;>
    (intro hc; subst hc; revert h; decide)

theorem Index_not_mem (c : Char) (s : GoString) (h : c ∉ s) : Index s [c] = none := by
  induction s with
  | nil => simp [Index]
  | cons x s ih =>
    have hx : x ≠ c := fun e => h (e ▸ List.mem_cons_self _ _)
    have hs : c ∉ s := fun e => h (List.mem_cons_of_mem _ e)
    simp [Index, startsWith, hx, ih hs]

theorem Index_append_cons (c : Char) (a b : GoString) (h : c ∉ a) :
    Index (a ++ c :: b) [c] = some a.length := by
  induction a with
  | nil => simp [Index, startsWith]
  | cons x a ih =>
    have hx : x ≠ c := fun e => h (e ▸ List.mem_cons_self _ _)
    have hs : c ∉ a := fun e => h (List.mem_cons_of_mem _ e)
    simp [Index, startsWith, hx, ih hs]

theorem countLoop_not_mem (c : Char) (fuel : Nat) (s : GoString) (h : c ∉ s) :
    countLoop [c] fuel s = 0 := by
  cases fuel with
  | zero => rfl
  | succ fuel => simp [countLoop, Index_not_mem c s h]

theorem splitLoop_not_mem (c : Char) (n : Nat) (s : GoString) (h : c ∉ s) :
    splitLoop [c] n s = [s] := by
  cases n with
  | zero => rfl
  | succ n => simp [splitLoop, Index_not_mem c s h]

theorem Split_not_mem (c : Char) (s : GoString) (h : c ∉ s) : Split s [c] = [s] := by
  simp [Split, splitLoop_not_mem c _ s h]

theorem Split_append_cons (c : Char) (a b : GoString) (ha : c ∉ a) (hb : c ∉ b) :
    Split (a ++ c :: b) [c] = [a, b] := by
  have hcount : Count (a ++ c :: b) [c] = 1 := by
    simp only [Count, List.cons_ne_nil, if_false, List.length_append, List.length_cons]
    rw [show a.length + (b.length + 1) = (a.length + b.length) + 1 by omega]
    simp [countLoop, Index_append_cons c a b ha, countLoop_not_mem c _ b hb]
  simp only [Split, List.cons_ne_nil, if_false, hcount, List.length_append, List.length_cons]
  rw [show min (1 + 1) (a.length + (b.length + 1) + 1) - 1 = 0 + 1 by omega]
  simp [splitLoop, Index_append_cons c a b ha]

theorem FindStringSubmatch_index (t : GoString) (hne : t ≠ [])
    (h : ∀ c ∈ t, isIndexChar c = true) : FindStringSubmatch t = [t, t, [], []] := by
  cases t with
  | nil => exact absurd rfl hne
  | cons c rest =>
    have hc : isIndexChar c = true := h c (List.mem_cons_self _ _)
    have h1 : (c :: rest).takeWhile isIndexChar = c :: rest :=
      List.takeWhile_eq_self_iff.2 h
    have h2 : (c :: rest).dropWhile isIndexChar = [] :=
      List.dropWhile_eq_nil_iff.2 h
    simp only [FindStringSubmatch, hc, if_true, matchHere, h1, h2]

theorem Atoi_digits (ds : GoString) (N : Nat) (hne : ds ≠ [])
    (hd : ∀ c ∈ ds, c.isDigit = true) (hv : atoiDigits ds 0 = some N)
    (hN : (N : Int) ≤ MaxInt) : Atoi ds = some (N : Int) := by
  cases ds with
  | nil => exact absurd rfl hne
  | cons c rest =>
    have hc := isDigit_facts c (hd c (List.mem_cons_self _ _))
    have h1 : ¬ ((c :: rest).head? = some '-') := by simp [hc.2.1]
    have h2 : ¬ ((c :: rest).head? = some '-' ∨ (c :: rest).head? = some '+') := by
      simp [hc.2.1, hc.2.2.1]
    unfold Atoi
    simp only [if_neg h2, if_neg h1, List.cons_ne_nil, if_false, hv, hN, if_true, decide_False,
      Bool.false_eq_true]

theorem Atoi_numeral (N : Nat) (hN : (N : Int) ≤ MaxInt) :
    Atoi (Nat.repr N).toList = some (N : Int) :=
  Atoi_digits _ N (numeral_spec N).1 (numeral_spec N).2.1 (numeral_spec N).2.2 hN

theorem numeral_not_mem (N : Nat) (c : Char) (hc : c.isDigit = false) :
    c ∉ (Nat.repr N).toList := by
  intro h
  have := (numeral_spec N).2.1 c h
  rw [hc] at this
  cases this

theorem parseFields_single (t : GoString) (h : ',' ∉ t) :
    parseFields t = (parseToken t).map (fun fm => [fm]) := by
  simp only [parseFields, Split_not_mem ',' t h, parseTokens]
  cases parseToken t <;> rfl

theorem parseToken_numeral (N : Nat) (hN : (N : Int) ≤ MaxInt) :
    parseToken (Nat.repr N).toList =
      .ok { start := (N : Int) - 1, «end» := (N : Int) - 1, cmd := [] } := by
  have hs := numeral_spec N
  have hidx : ∀ c ∈ (Nat.repr N).toList, isIndexChar c = true :=
    fun c hc => (isDigit_facts c (hs.2.1 c hc)).1
  simp only [parseToken, FindStringSubmatch_index _ hs.1 hidx,
    Split_not_mem '-' _ (numeral_not_mem N '-' rfl), Atoi_numeral N hN]
  simp

theorem parseToken_range (N M : Nat) (hN : (N : Int) ≤ MaxInt) (hM : (M : Int) ≤ MaxInt) :
    parseToken ((Nat.repr N).toList ++ '-' :: (Nat.repr M).toList) =
      .ok { start := (N : Int) - 1, «end» := (M : Int) - 1, cmd := [] } := by
  have hs := numeral_spec N
  have hm := numeral_spec M
  have hidx : ∀ c ∈ (Nat.repr N).toList ++ '-' :: (Nat.repr M).toList,
      isIndexChar c = true := by
    intro c hc
    rcases List.mem_append.1 hc with h | h
    · exact (isDigit_facts c (hs.2.1 c h)).1
    · rcases List.mem_cons.1 h with h | h
      · subst h; rfl
      · exact (isDigit_facts c (hm.2.1 c h)).1
  simp only [parseToken, FindStringSubmatch_index _ (by simp) hidx,
    Split_append_cons '-' _ _ (numeral_not_mem N '-' rfl) (numeral_not_mem M '-' rfl),
    Atoi_numeral N hN, Atoi_numeral M hM, if_neg hm.1]
  simp

theorem parseToken_open (N : Nat) (hN : (N : Int) ≤ MaxInt) :
    parseToken ((Nat.repr N).toList ++ ['-']) =
      .ok { start := (N : Int) - 1, «end» := endField, cmd := [] } := by
  have hs := numeral_spec N
  have hidx : ∀ c ∈ (Nat.repr N).toList ++ ['-'], isIndexChar c = true := by
    intro c hc
    rcases List.mem_append.1 hc with h | h
    · exact (isDigit_facts c (hs.2.1 c h)).1
    · simp only [List.mem_singleton] at h; subst h; rfl
  simp only [parseToken, FindStringSubmatch_index _ (by simp) hidx,
    Split_append_cons '-' _ [] (numeral_not_mem N '-' rfl) (by simp), Atoi_numeral N hN]
  simp

theorem exists_first (c : Char) (s : GoString) (h : c ∈ s) :
    ∃ a b, s = a ++ c :: b ∧ c ∉ a ∧ a = s.takeWhile (fun x => x != c) ∧
      b = (s.dropWhile (fun x => x != c)).drop 1 := by
  induction s with
  | nil => cases h
  | cons x s ih =>
    by_cases hx : x = c
    · subst hx
      exact ⟨[], s, rfl, by simp, by simp [List.takeWhile], by simp [List.dropWhile]⟩
    · have hs : c ∈ s := by
        rcases List.mem_cons.1 h with h1 | h1
        · exact absurd h1.symm hx
        · exact h1
      obtain ⟨a, b, hab, ha, hta, htb⟩ := ih hs
      have hxc : (x != c) = true := by simp [hx]
      refine ⟨x :: a, b, by simp [hab], ?_, ?_, ?_⟩
      · intro hm
        rcases List.mem_cons.1 hm with h1 | h1
        · exact hx h1.symm
        · exact ha h1
      · rw [List.takeWhile_cons, hxc, if_pos rfl, ← hta]
      · rw [List.dropWhile_cons, hxc, if_pos rfl, ← htb]

theorem countLoop_eq_count (c : Char) (fuel : Nat) (s : GoString) (h : s.count c ≤ fuel) :
    countLoop [c] fuel s = s.count c := by
  induction fuel generalizing s with
  | zero =>
    have h0 : s.count c = 0 := by omega
    rw [h0]; rfl
  | succ fuel ih =>
    by_cases hc : c ∈ s
    · obtain ⟨a, b, hab, ha, -, -⟩ := exists_first c s hc
      subst hab
      have hcnt : (a ++ c :: b).count c = b.count c + 1 := by
        simp [List.count_append, List.count_eq_zero_of_not_mem ha]
      rw [hcnt] at h ⊢
      simp only [countLoop, Index_append_cons c a b ha, List.length_singleton]
      rw [List.drop_append_eq_append_drop]
      simp only [List.drop_of_length_le (Nat.le_add_right _ _), List.nil_append,
        Nat.add_sub_cancel_left, List.drop_succ_cons, List.drop_zero]
      rw [ih b (by omega)]
      omega
    · rw [countLoop_not_mem c _ s hc, List.count_eq_zero_of_not_mem hc]

theorem Count_char (c : Char) (s : GoString) : Count s [c] = s.count c := by
  simp only [Count, List.cons_ne_nil, if_false]
  exact countLoop_eq_count c _ s (List.count_le_length c s)

theorem Split_char (c : Char) (s : GoString) : Split s [c] = splitLoop [c] (s.count c) s := by
  simp only [Split, List.cons_ne_nil, if_false, Count_char]
  have : s.count c ≤ s.length := List.count_le_length c s
  rw [show min (s.count c + 1) (s.length + 1) - 1 = s.count c by omega]

theorem splitLoop_append_cons (c : Char) (n : Nat) (a b : GoString) (ha : c ∉ a) :
    splitLoop [c] (n + 1) (a ++ c :: b) = a :: splitLoop [c] n b := by
  simp only [splitLoop, Index_append_cons c a b ha, List.length_singleton]
  rw [List.drop_append_eq_append_drop, List.take_append_eq_append_take]
  simp [List.drop_of_length_le (Nat.le_add_right a.length 1)]

theorem Split_cons (c : Char) (a b : GoString) (ha : c ∉ a) :
    Split (a ++ c :: b) [c] = a :: Split b [c] := by
  rw [Split_char, Split_char]
  have hcnt : (a ++ c :: b).count c = b.count c + 1 := by
    simp [List.count_append, List.count_eq_zero_of_not_mem ha]
  rw [hcnt, splitLoop_append_cons c _ a b ha]

theorem Split_length (c : Char) (s : GoString) : (Split s [c]).length = s.count c + 1 := by
  generalize hn : s.count c = n
  induction n generalizing s with
  | zero =>
    rw [Split_not_mem c s (List.count_eq_zero.1 hn)]; rfl
  | succ n ih =>
    have hc : c ∈ s := by
      by_contra hc
      rw [List.count_eq_zero_of_not_mem hc] at hn
      omega
    obtain ⟨a, b, hab, ha, -, -⟩ := exists_first c s hc
    subst hab
    have hcnt : (a ++ c :: b).count c = b.count c + 1 := by
      simp [List.count_append, List.count_eq_zero_of_not_mem ha]
    rw [Split_cons c a b ha, List.length_cons, ih b (by omega)]

theorem Join_char_cons (c : Char) (t : GoString) (rest : List GoString) (h : rest ≠ []) :
    Join (t :: rest) [c] = t ++ c :: Join rest [c] := by
  rw [Join_cons _ _ _ h]; simp

theorem Split_Join (c : Char) (tokens : List GoString) (hne : tokens ≠ [])
    (h : ∀ t ∈ tokens, c ∉ t) : Split (Join tokens [c]) [c] = tokens := by
  induction tokens with
  | nil => exact absurd rfl hne
  | cons t rest ih =>
    cases rest with
    | nil => simp only [Join]; exact Split_not_mem c t (h t (List.mem_cons_self _ _))
    | cons u rest =>
      rw [Join_char_cons c t _ (List.cons_ne_nil _ _),
        Split_cons c t _ (h t (List.mem_cons_self _ _)),
        ih (List.cons_ne_nil _ _) (fun x hx => h x (List.mem_cons_of_mem _ hx))]

theorem FindStringSubmatch_skip (junk t : GoString)
    (h : ∀ c ∈ junk, isIndexChar c = false) :
    FindStringSubmatch (junk ++ t) = FindStringSubmatch t := by
  induction junk with
  | nil => rfl
  | cons x junk ih =>
    have hx : isIndexChar x = false := h x (List.mem_cons_self _ _)
    simp only [List.cons_append, FindStringSubmatch, hx, Bool.false_eq_true, if_false]
    exact ih (fun c hc => h c (List.mem_cons_of_mem _ hc))

theorem FindStringSubmatch_eq (idx cmd : GoString) (hne : idx ≠ [])
    (h : ∀ c ∈ idx, isIndexChar c = true) :
    FindStringSubmatch (idx ++ '=' :: cmd) =
      [idx ++ '=' :: cmd.takeWhile (fun c => c != '\n'), idx,
        '=' :: cmd.takeWhile (fun c => c != '\n'), cmd.takeWhile (fun c => c != '\n')] := by
  have h1 : (idx ++ '=' :: cmd).takeWhile isIndexChar = idx := by
    rw [List.takeWhile_append_of_pos h]
    simp [List.takeWhile_cons, isIndexChar]
  have h2 : (idx ++ '=' :: cmd).dropWhile isIndexChar = '=' :: cmd := by
    rw [List.dropWhile_append_of_pos h]
    simp [List.dropWhile_cons, isIndexChar]
  cases idx with
  | nil => exact absurd rfl hne
  | cons c rest =>
    have hc : isIndexChar c = true := h c (List.mem_cons_self _ _)
    rw [List.cons_append, FindStringSubmatch, if_pos hc, ← List.cons_append]
    simp only [matchHere, h1, h2]

theorem parseToken_dashes (idx rest : GoString) (hidx : ∀ c ∈ idx, isIndexChar c = true)
    (hd : 2 ≤ idx.count '-') (hrest : rest = [] ∨ ∃ cmd, rest = '=' :: cmd) :
    parseToken (idx ++ rest) = .error (.fatalNotRange idx) := by
  have hne : idx ≠ [] := by
    intro h; subst h; simp at hd
  have hlen : (Split idx ['-']).length > 2 := by
    rw [Split_length]; omega
  rcases hrest with h | ⟨cmd, h⟩
  · subst h
    rw [List.append_nil]
    simp only [parseToken, FindStringSubmatch_index idx hne hidx, if_pos hlen]
  · subst h
    simp only [parseToken, FindStringSubmatch_eq idx cmd hne hidx, if_pos hlen]

theorem parseTokens_ok (tokens : List GoString) (acc fms : List FieldMapper) :
    parseTokens tokens acc = .ok fms ↔
      ∃ new, List.Forall₂ (fun t fm => parseToken t = .ok fm) tokens new ∧
        fms = acc ++ new := by
  induction tokens generalizing acc with
  | nil =>
    simp only [parseTokens, Except.ok.injEq, List.forall₂_nil_left_iff, exists_eq_left,
      List.append_nil]
    exact eq_comm
  | cons t rest ih =>
    constructor
    · intro h
      simp only [parseTokens] at h
      cases ht : parseToken t with
      | error e => rw [ht] at h; cases h
      | ok fm =>
        rw [ht] at h
        obtain ⟨new, hnew, rfl⟩ := (ih _).1 h
        exact ⟨fm :: new, List.Forall₂.cons ht hnew, by simp⟩
    · rintro ⟨new, hall, rfl⟩
      cases hall with
      | cons hfm hrest =>
        simp only [parseTokens, hfm]
        exact (ih _).2 ⟨_, hrest, by simp⟩

theorem parseTokens_error (pre post : List GoString) (t : GoString) (acc : List FieldMapper)
    (e : Fault) (h : parseToken t = .error e) :
    ∃ e2, parseTokens (pre ++ t :: post) acc = .error e2 := by
  induction pre generalizing acc with
  | nil => exact ⟨e, by simp [parseTokens, h]⟩
  | cons p pre ih =>
    simp only [List.cons_append, parseTokens]
    cases parseToken p with
    | error e3 => exact ⟨e3, rfl⟩
    | ok fm => exact ih _

theorem parseFields_Join (tokens : List GoString) (hne : tokens ≠ [])
    (h : ∀ t ∈ tokens, ',' ∉ t) :
    parseFields (Join tokens [',']) = parseTokens tokens [] := by
  rw [parseFields, Split_Join ',' tokens hne h]

theorem atoiDigits_some (ds : GoString) (a n : Nat) (h : atoiDigits ds a = some n) :
    ∀ c ∈ ds, c.isDigit = true := by
  induction ds generalizing a with
  | nil => intro c hc; cases hc
  | cons x ds ih =>
    simp only [atoiDigits] at h
    split at h
    · next hx =>
      intro c hc
      rcases List.mem_cons.1 hc with h1 | h1
      · subst h1; exact hx
      · exact ih _ h c h1
    · cases h

theorem getLast_digit (s ds : GoString) (n : Nat) (hne : ds ≠ [])
    (hsuf : ds = s ∨ ds = s.drop 1) (hn : atoiDigits ds 0 = some n) :
    ∃ c, s.getLast? = some c ∧ c.isDigit = true := by
  have hdig := atoiDigits_some _ _ _ hn
  have hlast : ds.getLast? = s.getLast? := by
    rcases hsuf with h | h
    · rw [h]
    · subst h
      cases s with
      | nil => simp at hne
      | cons x s =>
        simp only [List.drop_succ_cons, List.drop_zero] at hne ⊢
        cases s with
        | nil => exact absurd rfl hne
        | cons y s => simp [List.getLast?_cons_cons]
  cases hl : ds.getLast? with
  | none => exact absurd (List.getLast?_eq_none_iff.1 hl) hne
  | some c => exact ⟨c, hlast ▸ hl, hdig c (List.mem_of_getLast?_eq_some hl)⟩

theorem Atoi_some (s : GoString) (v : Int) (h : Atoi s = some v) :
    v ≤ MaxInt ∧ ∃ c, s.getLast? = some c ∧ c.isDigit = true := by
  unfold Atoi at h
  simp only at h
  generalize hds : (if s.head? = some '-' ∨ s.head? = some '+' then s.drop 1 else s) = ds at h
  have hsuf : ds = s ∨ ds = s.drop 1 := by
    rw [← hds]; split
    · exact Or.inr rfl
    · exact Or.inl rfl
  by_cases hne : ds = []
  · rw [if_pos hne] at h; cases h
  · rw [if_neg hne] at h
    cases hn : atoiDigits ds 0 with
    | none => rw [hn] at h; cases h
    | some n =>
      rw [hn] at h
      refine ⟨?_, getLast_digit s ds n hne hsuf hn⟩
      simp only at h
      split at h
      · split at h
        · cases h; simp only [MaxInt]; omega
        · cases h
      · split at h
        · next hle => cases h; exact hle
        · cases h

theorem digit_ne_dash (c : Char) (h : c.isDigit = true) : some c ≠ some '-' := by
  intro hc
  cases hc
  revert h; decide

theorem parseToken_end (f : GoString) (fm : FieldMapper) (h : parseToken f = .ok fm) :
    fm.start < endField ∧ fm.«end» ≤ endField ∧
      ∃ g0 g1 g2 g3, FindStringSubmatch f = [g0, g1, g2, g3] ∧
        (fm.«end» = endField ↔ g1.getLast? = some '-') := by
  unfold parseToken at h
  split at h
  · cases h
  · next g0 g1 g2 g3 hg =>
    simp only at h
    have hjoin := Join_Split g1 ['-'] (List.cons_ne_nil _ _)
    split at h
    · cases h
    · next hlen =>
      cases hn : Split g1 ['-'] with
      | nil => rw [hn] at h; cases h
      | cons n0 tl =>
        rw [hn] at h hlen hjoin
        simp only at h
        cases hv : Atoi n0 with
        | none => rw [hv] at h; cases h
        | some v =>
          rw [hv] at h
          simp only at h
          obtain ⟨hvle, c0, hc0, hd0⟩ := Atoi_some n0 v hv
          cases tl with
          | nil =>
            simp only [Except.ok.injEq] at h
            subst h
            simp only [Join] at hjoin
            subst hjoin
            refine ⟨by simp only [endField, MaxInt] at hvle ⊢; omega,
              by simp only [endField, MaxInt] at hvle ⊢; omega, g0, n0, g2, g3, hg, ?_⟩
            constructor
            · intro he
              simp only [endField, MaxInt] at hvle he
              omega
            · intro hl
              rw [hc0] at hl
              exact absurd hl (digit_ne_dash c0 hd0)
          | cons n1 tl2 =>
            have htl2 : tl2 = [] := by
              simp only [List.length_cons] at hlen
              exact List.length_eq_zero.1 (by omega)
            subst htl2
            simp only [Join] at hjoin
            simp only at h
            by_cases hn1 : n1 = []
            · rw [if_pos hn1] at h
              simp only [Except.ok.injEq] at h
              subst h
              subst hn1
              refine ⟨by simp only [endField, MaxInt] at hvle ⊢; omega, le_refl _,
                g0, g1, g2, g3, hg, ?_⟩
              simp only [true_iff]
              rw [← hjoin]
              simp
            · rw [if_neg hn1] at h
              cases he : Atoi n1 with
              | none => rw [he] at h; cases h
              | some e =>
                rw [he] at h
                simp only [Except.ok.injEq] at h
                subst h
                obtain ⟨hele, c1, hc1, hd1⟩ := Atoi_some n1 e he
                refine ⟨by simp only [endField, MaxInt] at hvle ⊢; omega,
                  by simp only [endField, MaxInt] at hele ⊢; omega, g0, g1, g2, g3, hg, ?_⟩
                constructor
                · intro hee
                  simp only [endField, MaxInt] at hele hee
                  omega
                · intro hl
                  rw [← hjoin] at hl
                  have : (n0 ++ ['-'] ++ n1).getLast? = n1.getLast? := by
                    rw [List.getLast?_append_of_ne_nil _ hn1]
                  rw [this, hc1] at hl
                  exact absurd hl (digit_ne_dash c1 hd1)
  · cases h

theorem parseFields_token (t : GoString) (fm : FieldMapper) (h : ',' ∉ t) :
    parseFields t = .ok [fm] ↔ parseToken t = .ok fm := by
  rw [parseFields_single t h]
  cases parseToken t with
  | error e => simp [Except.map]
  | ok x => simp [Except.map]

theorem forall₂_tokens (tokens : List GoString) (fms : List FieldMapper)
    (hc : ∀ t ∈ tokens, ',' ∉ t) :
    List.Forall₂ (fun t fm => parseToken t = .ok fm) tokens fms ↔
      List.Forall₂ (fun t fm => parseFields t = .ok [fm]) tokens fms := by
  induction tokens generalizing fms with
  | nil => simp
  | cons t rest ih =>
    simp only [List.forall₂_cons_left_iff]
    constructor
    · rintro ⟨fm, r, h1, h2, rfl⟩
      exact ⟨fm, r, (parseFields_token t fm (hc t (List.mem_cons_self _ _))).2 h1,
        (ih r (fun x hx => hc x (List.mem_cons_of_mem _ hx))).1 h2, rfl⟩
    · rintro ⟨fm, r, h1, h2, rfl⟩
      exact ⟨fm, r, (parseFields_token t fm (hc t (List.mem_cons_self _ _))).1 h1,
        (ih r (fun x hx => hc x (List.mem_cons_of_mem _ hx))).2 h2, rfl⟩

theorem exists_forall₂ (tokens : List GoString)
    (h : ∀ t ∈ tokens, ∃ fm, parseFields t = .ok [fm]) :
    ∃ fms, List.Forall₂ (fun t fm => parseFields t = .ok [fm]) tokens fms := by
  induction tokens with
  | nil => exact ⟨[], List.Forall₂.nil⟩
  | cons t rest ih =>
    obtain ⟨fm, hfm⟩ := h t (List.mem_cons_self _ _)
    obtain ⟨fms, hfms⟩ := ih (fun x hx => h x (List.mem_cons_of_mem _ hx))
    exact ⟨fm :: fms, List.Forall₂.cons hfm hfms⟩

theorem forall₂_mem_left (tokens : List GoString) (fms : List FieldMapper)
    (h : List.Forall₂ (fun t fm => parseFields t = .ok [fm]) tokens fms) :
    ∀ t ∈ tokens, ∃ fm, parseFields t = .ok [fm] := by
  induction h with
  | nil => intro t ht; cases ht
  | cons hfm _ ih =>
    intro t ht
    rcases List.mem_cons.1 ht with h1 | h1
    · subst h1; exact ⟨_, hfm⟩
    · exact ih t h1

theorem parseToken_command (idx c : GoString) (hne : idx ≠ [])
    (hidx : ∀ x ∈ idx, isIndexChar x = true) :
    parseToken (idx ++ '=' :: c) =
      (parseToken idx).map
        (fun fm => { fm with cmd := c.takeWhile (fun x => x != '\n') }) := by
  simp only [parseToken, FindStringSubmatch_eq idx c hne hidx,
    FindStringSubmatch_index idx hne hidx]
  by_cases hlen : (Split idx ['-']).length > 2
  · simp only [if_pos hlen]; rfl
  · simp only [if_neg hlen]
    cases Split idx ['-'] with
    | nil => rfl
    | cons n0 tl =>
      simp only
      cases Atoi n0 with
      | none => rfl
      | some v =>
        simp only
        cases tl with
        | nil => rfl
        | cons n1 tl2 =>
          simp only
          by_cases hn1 : n1 = []
          · simp only [if_pos hn1]; rfl
          · simp only [if_neg hn1]
            cases Atoi n1 with
            | none => rfl
            | some e => rfl

theorem takeWhile_no_line_feed (c : GoString) (h : '\n' ∉ c) :
    c.takeWhile (fun x => x != '\n') = c := by
  apply List.takeWhile_eq_self_iff.2
  intro x hx
  simp only [bne_iff_ne, ne_eq]
  intro e; subst e; exact h hx

/-! ## Lemmas about the loops of the program -/

theorem index_natCast (fields : List GoString) (k : Nat) (h : k < fields.length) :
    index fields (k : Int) = .ok fields[k] := by
  simp [index, List.getElem?_eq_getElem h]

theorem index_neg (fields : List GoString) (i : Int) (h : i < 0) :
    index fields i = .error (.indexOutOfRange i fields.length) := by
  simp [index, not_le.2 h]

theorem mapperLoop_natCast (sh : GoString → Option GoString) (fm : FieldMapper)
    (fields : List GoString) (fuel k : Nat) (acc : List GoString)
    (h : fields.length ≤ fuel + k) :
    mapperLoop sh fm fields (fuel + 1) (k : Int) acc =
      .ok (acc ++ ((fields.drop k).take (fm.«end» + 1 - k).toNat).map
        (runCommand sh fm.cmd)) := by
  induction fuel generalizing k acc with
  | zero =>
    have hk : ¬ ((k : Int) ≤ fm.«end» ∧ (k : Int) < (fields.length : Int)) := by omega
    simp only [mapperLoop, if_neg hk]
    rw [List.drop_eq_nil_of_le (by omega)]
    simp
  | succ fuel ih =>
    rw [mapperLoop]
    by_cases hc : (k : Int) ≤ fm.«end» ∧ (k : Int) < (fields.length : Int)
    · have hk : k < fields.length := by omega
      rw [if_pos hc, index_natCast fields k hk]
      simp only
      have := ih (k + 1) (acc ++ [runCommand sh fm.cmd fields[k]]) (by omega)
      rw [show ((k : Int) + 1) = ((k + 1 : Nat) : Int) by push_cast; rfl, this]
      have h1 : (fm.«end» + 1 - (k : Int)).toNat = (fm.«end» + 1 - ((k + 1 : Nat) : Int)).toNat + 1 := by
        omega
      rw [h1, List.drop_eq_getElem_cons hk, List.take_succ_cons]
      simp
    · rw [if_neg hc]
      by_cases h2 : (k : Int) ≤ fm.«end»
      · rw [List.drop_eq_nil_of_le (by omega)]; simp
      · rw [show (fm.«end» + 1 - (k : Int)).toNat = 0 by omega]; simp

theorem mapperLoop_empty (sh : GoString → Option GoString) (fm : FieldMapper)
    (fields : List GoString) (fuel : Nat) (i : Int) (acc : List GoString)
    (h : (fields.length : Int) ≤ i ∨ fm.«end» < i) :
    mapperLoop sh fm fields (fuel + 1) i acc = .ok acc := by
  have hc : ¬ (i ≤ fm.«end» ∧ i < (fields.length : Int)) := by omega
  simp only [mapperLoop, if_neg hc]

theorem mapperLoop_neg (sh : GoString → Option GoString) (fm : FieldMapper)
    (fields : List GoString) (fuel : Nat) (i : Int) (acc : List GoString)
    (h0 : i < 0) (h : i ≤ fm.«end») :
    mapperLoop sh fm fields (fuel + 1) i acc = .error (.indexOutOfRange i fields.length) := by
  have hc : (i ≤ fm.«end» ∧ i < (fields.length : Int)) := by omega
  simp only [mapperLoop, if_pos hc, index_neg fields i h0]

theorem runCommand_nil (sh : GoString → Option GoString) (input : GoString) :
    runCommand sh [] input = input := by
  simp [runCommand]

theorem mappersLoop_append (sh : GoString → Option GoString) (fields : List GoString)
    (a b : List FieldMapper) (acc : List GoString) :
    mappersLoop sh fields (a ++ b) acc =
      match mappersLoop sh fields a acc with
      | .error e => .error e
      | .ok x => mappersLoop sh fields b x := by
  induction a generalizing acc with
  | nil => simp [mappersLoop]
  | cons fm a ih =>
    simp only [List.cons_append, mappersLoop]
    cases mapperLoop sh fm fields (fields.length + 1) fm.start acc with
    | error e => simp
    | ok x => simp [ih]

theorem index_mem (fields : List GoString) (i : Int) (f : GoString)
    (h : index fields i = .ok f) : f ∈ fields := by
  unfold index at h
  split at h
  · split at h
    · next g hg =>
      cases h
      exact List.mem_iff_get?.2 ⟨_, hg⟩
    · cases h
  · cases h

theorem mapperLoop_select (sh : GoString → Option GoString) (fm : FieldMapper)
    (fields : List GoString) (fuel : Nat) (i : Int) (sel : List (GoString × GoString)) :
    mapperLoop sh fm fields fuel i (sel.map (fun p => runCommand sh p.1 p.2)) =
      (selectLoop fm fields fuel i sel).map (List.map (fun p => runCommand sh p.1 p.2)) := by
  induction fuel generalizing i sel with
  | zero => rfl
  | succ fuel ih =>
    simp only [mapperLoop, selectLoop]
    split
    · cases hidx : index fields i with
      | error e => rfl
      | ok f =>
        simp only
        rw [← ih]
        simp
    · rfl

theorem mappersLoop_select (sh : GoString → Option GoString) (fields : List GoString)
    (fms : List FieldMapper) (sel : List (GoString × GoString)) :
    mappersLoop sh fields fms (sel.map (fun p => runCommand sh p.1 p.2)) =
      (selectAll fields fms sel).map (List.map (fun p => runCommand sh p.1 p.2)) := by
  induction fms generalizing sel with
  | nil => rfl
  | cons fm rest ih =>
    simp only [mappersLoop, selectAll, mapperLoop_select]
    cases selectLoop fm fields (fields.length + 1) fm.start sel with
    | error e => rfl
    | ok sel2 =>
      simp only [Except.map]
      exact ih sel2

theorem selectLoop_mem (fm : FieldMapper) (fields : List GoString) (fuel : Nat) (i : Int)
    (sel out : List (GoString × GoString)) (h : selectLoop fm fields fuel i sel = .ok out) :
    ∀ p ∈ out, p ∈ sel ∨ (p.1 = fm.cmd ∧ p.2 ∈ fields) := by
  induction fuel generalizing i sel with
  | zero => cases h
  | succ fuel ih =>
    simp only [selectLoop] at h
    split at h
    · cases hidx : index fields i with
      | error e => rw [hidx] at h; cases h
      | ok f =>
        rw [hidx] at h
        intro p hp
        rcases ih _ _ h p hp with h1 | h1
        · rcases List.mem_append.1 h1 with h2 | h2
          · exact Or.inl h2
          · right
            simp only [List.mem_singleton] at h2
            subst h2
            exact ⟨rfl, index_mem fields i f hidx⟩
        · exact Or.inr h1
    · cases h
      intro p hp; exact Or.inl hp

theorem selectAll_mem (fields : List GoString) (fms : List FieldMapper)
    (sel out : List (GoString × GoString)) (h : selectAll fields fms sel = .ok out) :
    ∀ p ∈ out, p ∈ sel ∨ ((∃ fm ∈ fms, p.1 = fm.cmd) ∧ p.2 ∈ fields) := by
  induction fms generalizing sel with
  | nil => cases h; intro p hp; exact Or.inl hp
  | cons fm rest ih =>
    simp only [selectAll] at h
    cases hl : selectLoop fm fields (fields.length + 1) fm.start sel with
    | error e => rw [hl] at h; cases h
    | ok sel2 =>
      rw [hl] at h
      intro p hp
      rcases ih sel2 h p hp with h1 | ⟨⟨fm2, hfm2, hc⟩, hf⟩
      · rcases selectLoop_mem fm fields _ _ sel sel2 hl p h1 with h2 | ⟨h2, h3⟩
        · exact Or.inl h2
        · exact Or.inr ⟨⟨fm, List.mem_cons_self _ _, h2⟩, h3⟩
      · exact Or.inr ⟨⟨fm2, List.mem_cons_of_mem _ hfm2, hc⟩, hf⟩

theorem mapperLoop_fuel (sh : GoString → Option GoString) (fm : FieldMapper)
    (fields : List GoString) (acc : List GoString) :
    mapperLoop sh fm fields (fields.length + 1) fm.start acc ≠ .error .outOfFuel := by
  by_cases h0 : fm.start < 0
  · by_cases h1 : fm.start ≤ fm.«end»
    · rw [mapperLoop_neg sh fm fields _ _ acc h0 h1]; simp
    · rw [mapperLoop_empty sh fm fields _ _ acc (Or.inr (by omega))]; simp
  · obtain ⟨k, hk⟩ := Int.eq_ofNat_of_zero_le (not_lt.1 h0)
    rw [hk, mapperLoop_natCast sh fm fields _ k acc (by omega)]; simp

theorem mappersLoop_fuel (sh : GoString → Option GoString) (fields : List GoString)
    (fms : List FieldMapper) (acc : List GoString) :
    mappersLoop sh fields fms acc ≠ .error .outOfFuel := by
  induction fms generalizing acc with
  | nil => simp [mappersLoop]
  | cons fm rest ih =>
    simp only [mappersLoop]
    have := mapperLoop_fuel sh fm fields acc
    cases h : mapperLoop sh fm fields (fields.length + 1) fm.start acc with
    | error e =>
      rw [h] at this
      simpa using this
    | ok x => exact ih x

theorem processLine_fuel (sh : GoString → Option GoString) (sep : GoString)
    (fms : List FieldMapper) (line : GoString) :
    processLine sh sep fms line ≠ .error .outOfFuel := by
  simp only [processLine]
  have := mappersLoop_fuel sh (Split line sep) fms []
  cases h : mappersLoop sh (Split line sep) fms [] with
  | error e =>
    rw [h] at this
    simpa using this
  | ok x => simp

theorem ReadString_length (d : Char) (s : GoString) (h : (ReadString d s).2.2 = false) :
    (ReadString d s).2.1.length < s.length := by
  induction s with
  | nil => simp [ReadString] at h
  | cons c s ih =>
    simp only [ReadString] at h ⊢
    split
    · simp
    · next hc =>
      rw [if_neg hc] at h
      have := ih h
      simp only [List.length_cons]
      omega

theorem readLoop_fuel (sh : GoString → Option GoString) (sep : GoString)
    (fms : List FieldMapper) (fuel : Nat) (input : GoString) (printed : List GoString)
    (h : input.length < fuel) :
    (readLoop sh sep fms fuel input printed).fault ≠ some .outOfFuel := by
  induction fuel generalizing input printed with
  | zero => omega
  | succ fuel ih =>
    simp only [readLoop]
    cases he : (ReadString '\n' input).2.2 with
    | true => simp
    | false =>
      simp only [Bool.false_eq_true, if_false]
      have hp := processLine_fuel sh sep fms (stripNewline (ReadString '\n' input).1)
      cases hl : processLine sh sep fms (stripNewline (ReadString '\n' input).1) with
      | error e =>
        rw [hl] at hp
        simpa using hp
      | ok out =>
        have := ReadString_length '\n' input he
        exact ih _ _ (by omega)

theorem parseToken_fuel (f : GoString) : parseToken f ≠ .error .outOfFuel := by
  unfold parseToken
  intro h
  simp only at h
  repeat' split at h
  all_goals cases h

theorem parseTokens_fuel (l : List GoString) (acc : List FieldMapper) :
    parseTokens l acc ≠ .error .outOfFuel := by
  induction l generalizing acc with
  | nil => simp [parseTokens]
  | cons f rest ih =>
    simp only [parseTokens]
    have := parseToken_fuel f
    cases hf : parseToken f with
    | ok fm => exact ih _
    | error e =>
      rw [hf] at this
      simpa using this

theorem main_fuel (sh : GoString → Option GoString) (sep spec input : GoString) :
    (main sh sep spec input).fault ≠ some .outOfFuel := by
  simp only [main]
  have hp := parseTokens_fuel (Split spec [',']) []
  cases h : parseFields spec with
  | ok fms => exact readLoop_fuel sh sep fms _ input [] (by omega)
  | error e =>
    rw [parseFields] at h
    rw [h] at hp
    simpa using hp

theorem mapperLoop_acc (sh : GoString → Option GoString) (fm : FieldMapper)
    (fields : List GoString) (fuel : Nat) (i : Int) (acc : List GoString) :
    mapperLoop sh fm fields fuel i acc =
      (mapperLoop sh fm fields fuel i []).map (fun out => acc ++ out) := by
  induction fuel generalizing i acc with
  | zero => rfl
  | succ fuel ih =>
    simp only [mapperLoop]
    split
    · cases index fields i with
      | error e => rfl
      | ok f =>
        simp only
        rw [ih (i + 1) (acc ++ [runCommand sh fm.cmd f]),
          ih (i + 1) ([] ++ [runCommand sh fm.cmd f])]
        cases mapperLoop sh fm fields fuel (i + 1) [] with
        | error e => rfl
        | ok x => simp [Except.map]
    · simp [Except.map]

theorem mappersLoop_acc (sh : GoString → Option GoString) (fields : List GoString)
    (fms : List FieldMapper) (acc : List GoString) :
    mappersLoop sh fields fms acc =
      (mappersLoop sh fields fms []).map (fun out => acc ++ out) := by
  induction fms generalizing acc with
  | nil => simp [mappersLoop, Except.map]
  | cons fm rest ih =>
    simp only [mappersLoop]
    rw [mapperLoop_acc sh fm fields _ _ acc]
    cases mapperLoop sh fm fields (fields.length + 1) fm.start [] with
    | error e => rfl
    | ok x =>
      simp only [Except.map]
      rw [ih (acc ++ x), ih x]
      cases mappersLoop sh fields rest [] with
      | error e => rfl
      | ok y => simp [Except.map]

theorem mappersLoop_concat (sh : GoString → Option GoString) (fields : List GoString)
    (a b : List FieldMapper) (out : List GoString) :
    mappersLoop sh fields (a ++ b) [] = .ok out ↔
      ∃ out1 out2, mappersLoop sh fields a [] = .ok out1 ∧
        mappersLoop sh fields b [] = .ok out2 ∧ out = out1 ++ out2 := by
  rw [mappersLoop_append]
  cases ha : mappersLoop sh fields a [] with
  | error e => simp
  | ok x =>
    simp only
    rw [mappersLoop_acc sh fields b x]
    cases hb : mappersLoop sh fields b [] with
    | error e => simp [Except.map]
    | ok y =>
      simp only [Except.map, Except.ok.injEq]
      constructor
      · intro h; exact ⟨x, y, rfl, rfl, h.symm⟩
      · rintro ⟨o1, o2, h1, h2, h3⟩; subst h1 h2; exact h3.symm

theorem slice_eq_sliceRef (fs : List GoString) (fm : FieldMapper) (k : Nat)
    (hk : fm.start = (k : Int)) :
    (fs.drop k).take (fm.«end» + 1 - (k : Int)).toNat = sliceRef fs fm := by
  unfold sliceRef
  simp only [hk, Int.toNat_ofNat]
  split
  · next h =>
    rw [List.take_eq_take]
    simp only [List.length_drop]
    omega
  · next h =>
    by_cases h2 : (k : Int) ≤ fm.«end»
    · rw [List.drop_eq_nil_of_le (by omega)]; simp
    · rw [show (fm.«end» + 1 - (k : Int)).toNat = 0 by omega]; simp

theorem mapperLoop_sliceRef (sh : GoString → Option GoString) (fm : FieldMapper)
    (fs : List GoString) (acc : List GoString) (h0 : 0 ≤ fm.start) :
    mapperLoop sh fm fs (fs.length + 1) fm.start acc =
      .ok (acc ++ (sliceRef fs fm).map (runCommand sh fm.cmd)) := by
  obtain ⟨k, hk⟩ := Int.eq_ofNat_of_zero_le h0
  rw [← slice_eq_sliceRef fs fm k hk, hk]
  exact mapperLoop_natCast sh fm fs fs.length k acc (by omega)

theorem sliceRef_length_le (fs : List GoString) (fm : FieldMapper) :
    (sliceRef fs fm).length ≤ fs.length := by
  unfold sliceRef
  simp only
  split
  · simp only [List.length_take, List.length_drop]; omega
  · simp

theorem sliceRef_open (fs : List GoString) (fm : FieldMapper) (h0 : 0 ≤ fm.start)
    (he : fm.«end» = endField) (hlen : (fs.length : Int) ≤ MaxInt) :
    sliceRef fs fm = fs.drop fm.start.toNat := by
  obtain ⟨k, hk⟩ := Int.eq_ofNat_of_zero_le h0
  rw [← slice_eq_sliceRef fs fm k hk, hk, he]
  simp only [Int.toNat_ofNat]
  apply List.take_of_length_le
  simp only [endField, MaxInt, List.length_drop] at hlen ⊢
  omega

theorem mappersLoop_slices (sh : GoString → Option GoString) (fs : List GoString)
    (fms : List FieldMapper) (acc : List GoString)
    (h : ∀ fm ∈ fms, 0 ≤ fm.start ∧ fm.cmd = []) :
    mappersLoop sh fs fms acc = .ok (acc ++ (fms.map (sliceRef fs)).flatten) := by
  induction fms generalizing acc with
  | nil => simp [mappersLoop]
  | cons fm rest ih =>
    have hfm := h fm (List.mem_cons_self _ _)
    simp only [mappersLoop, mapperLoop_sliceRef sh fm fs acc hfm.1, hfm.2]
    rw [ih _ (fun x hx => h x (List.mem_cons_of_mem _ hx))]
    have hid : List.map (runCommand sh []) (sliceRef fs fm) = sliceRef fs fm := by
      conv_rhs => rw [← List.map_id (sliceRef fs fm)]
      exact List.map_congr_left (fun x _ => runCommand_nil sh x)
    simp [hid]

theorem slices_length_le (fs : List GoString) (fms : List FieldMapper) :
    ((fms.map (sliceRef fs)).flatten).length ≤ fms.length * fs.length := by
  induction fms with
  | nil => simp
  | cons fm rest ih =>
    have := sliceRef_length_le fs fm
    simp only [List.map_cons, List.flatten_cons, List.length_append, List.length_cons]
    rw [Nat.succ_mul]
    omega

theorem Split_head (X : Char) (s : GoString) :
    ∃ rest, Split s [X] = s.takeWhile (fun c => c != X) :: rest := by
  by_cases h : X ∈ s
  · obtain ⟨a, b, hab, ha, hta, -⟩ := exists_first X s h
    refine ⟨Split b [X], ?_⟩
    rw [← hta]
    conv_lhs => rw [hab]
    exact Split_cons X a b ha
  · refine ⟨[], ?_⟩
    rw [Split_not_mem X s h]
    congr 1
    symm
    apply List.takeWhile_eq_self_iff.2
    intro c hc
    simp only [bne_iff_ne, ne_eq]
    intro e; subst e; exact h hc

theorem processLine_open (sh : GoString → Option GoString) (D s : GoString)
    (hlen : ((Split s D).length : Int) ≤ MaxInt + 1) :
    processLine sh D [{ start := 0, «end» := endField, cmd := [] }] s =
      .ok (Join (Split s D) D) := by
  have hloop := mapperLoop_natCast sh { start := 0, «end» := endField, cmd := [] }
    (Split s D) (Split s D).length 0 [] (by omega)
  simp only [processLine, mappersLoop]
  simp only [Nat.cast_zero] at hloop
  rw [hloop]
  simp only [List.drop_zero, List.nil_append]
  have htake : (Split s D).length ≤ (endField + 1 - 0).toNat := by
    simp only [endField, MaxInt] at hlen ⊢
    omega
  rw [List.take_of_length_le htake]
  have hid : List.map (runCommand sh []) (Split s D) = Split s D := by
    conv_rhs => rw [← List.map_id (Split s D)]
    exact List.map_congr_left (fun x _ => runCommand_nil sh x)
  rw [hid]

theorem processLine_newline (sh : GoString → Option GoString) (D : GoString) :
    processLine sh D [{ start := 0, «end» := endField, cmd := [] }] ['\n'] = .ok ['\n'] := by
  by_cases hD : D = []
  · subst hD
    rw [processLine_open sh [] ['\n'] (by decide)]
    decide
  · have hlen := Split_length_le ['\n'] D hD
    rw [processLine_open sh D ['\n']
      (by simp only [MaxInt]; simp only [List.length_singleton] at hlen; omega),
      Join_Split _ _ hD]

theorem mappersLoop_pairs (sh : GoString → Option GoString) (fs : List GoString)
    (fms : List FieldMapper) (acc : List GoString) (h : ∀ fm ∈ fms, 0 ≤ fm.start) :
    mappersLoop sh fs fms acc =
      .ok (acc ++ (selectedPairs fs fms).map (fun p => runCommand sh p.1 p.2)) := by
  induction fms generalizing acc with
  | nil => simp [mappersLoop, selectedPairs]
  | cons fm rest ih =>
    simp only [mappersLoop, mapperLoop_sliceRef sh fm fs acc (h fm (List.mem_cons_self _ _))]
    rw [ih _ (fun x hx => h x (List.mem_cons_of_mem _ hx))]
    simp [selectedPairs, Function.comp_def]

theorem runCommand_isolated (sh sh2 : GoString → Option GoString) (c0 : GoString)
    (hsh : sh c0 = none) (h : ∀ c, c ≠ c0 → sh2 c = sh c) (p : GoString × GoString) :
    runCommand sh p.1 p.2 = runCommand sh2 p.1 p.2 ∨
      (runCommand sh p.1 p.2 = [] ∧ p.1 ≠ [] ∧ ReplaceAll p.1 ['\x7b', '\x7d'] p.2 = c0) := by
  by_cases hp : p.1 = []
  · left; simp [runCommand, hp]
  · by_cases hc : ReplaceAll p.1 ['\x7b', '\x7d'] p.2 = c0
    · right
      exact ⟨by simp only [runCommand, if_neg hp, hc, hsh], hp, hc⟩
    · left
      simp only [runCommand, if_neg hp, h _ hc]

/-! ## The claims -/

/-- C1: pass-through round trip. With the mappers parsed from the default spec `1-`, for
every shell, every line content `s` (of a length a Go string can have) and every
non-empty delimiter `D`, splitting `s` on `D`, applying the mappers and joining with `D`
gives back exactly `s`. -/
theorem passthrough_roundtrip (sh : GoString → Option GoString) (s D : GoString)
    (hD : D ≠ []) (hs : (s.length : Int) ≤ MaxInt) :
    ∃ fms, parseFields "1-".toList = .ok fms ∧ processLine sh D fms s = .ok s := by
  refine ⟨[{ start := 0, «end» := endField, cmd := [] }], by decide, ?_⟩
  have hlen := Split_length_le s D hD
  have hloop := mapperLoop_natCast sh { start := 0, «end» := endField, cmd := [] }
    (Split s D) (Split s D).length 0 [] (by omega)
  simp only [processLine, mappersLoop]
  simp only [Nat.cast_zero] at hloop
  rw [hloop]
  simp only [List.drop_zero, List.nil_append]
  have htake : (Split s D).length ≤ (endField + 1 - 0).toNat := by
    simp only [endField, MaxInt] at hs ⊢
    omega
  rw [List.take_of_length_le htake]
  have hid : List.map (runCommand sh []) (Split s D) = Split s D := by
    conv_rhs => rw [← List.map_id (Split s D)]
    exact List.map_congr_left (fun x _ => runCommand_nil sh x)
  rw [hid, Join_Split s D hD]

theorem passthrough_roundtrip_witness :
    ∃ fms, parseFields "1-".toList = .ok fms ∧
      processLine (fun _ => none) "\t".toList fms "x\ty".toList = .ok "x\ty".toList :=
  passthrough_roundtrip (fun _ => none) "x\ty".toList "\t".toList (by decide) (by decide)

/-- C2 (defect of the code): the strip step removes two bytes, not one. For a raw line
`s ++ "\n"` with `s` non-empty it returns `s` without its last byte, so the last byte of
the content is lost; for `"ab\n"` it returns `"a"`, not `"ab"`. -/
theorem strip_removes_two_bytes :
    (∀ (c : Char) (s : GoString), stripNewline (c :: s ++ ['\n']) = (c :: s).dropLast) ∧
    stripNewline "ab\n".toList = "a".toList ∧
    stripNewline "ab\n".toList ≠ "ab".toList := by
  refine ⟨?_, by decide, by decide⟩
  intro c s
  have h : (c :: s ++ ['\n']).length > 1 ∧ (c :: s ++ ['\n']).getLast? = some '\n' := by
    constructor
    · simp
    · rw [show c :: s ++ ['\n'] = (c :: s) ++ ['\n'] from rfl, List.getLast?_append]; simp
  simp only [stripNewline, if_pos h]
  rw [List.dropLast_eq_take]
  simp only [List.length_cons, List.length_append, List.length_nil]
  rw [show c :: s ++ ['\n'] = (c :: s) ++ ['\n'] from rfl,
    List.take_append_of_le_length (by simp)]
  simp

/-- C3 (defect of the code): a final segment without a line terminator is read but never
processed. The input `"ab\ncd"` has the two input lines `"ab\n"` and `"cd"`, and the
run with the default spec `1-` and the tab delimiter ends normally after printing one
line only. -/
theorem unterminated_last_line_dropped :
    inputLines "ab\ncd".toList = ["ab\n".toList, "cd".toList] ∧
    main (fun _ => none) "\t".toList "1-".toList "ab\ncd".toList =
      { printed := ["a".toList], fault := none } ∧
    (main (fun _ => none) "\t".toList "1-".toList "ab\ncd".toList).printed.length ≠
      (inputLines "ab\ncd".toList).length := by
  decide

/-- C4: duplicate selection. With the mappers parsed from the spec `1,1`, for every line
content and every non-empty delimiter `D` the output line is `F ++ D ++ F`, where `F` is
the first field of the line content split on `D`. -/
theorem duplicate_selection (sh : GoString → Option GoString) (s D : GoString)
    (hD : D ≠ []) :
    ∃ fms F rest, parseFields "1,1".toList = .ok fms ∧ Split s D = F :: rest ∧
      processLine sh D fms s = .ok (F ++ D ++ F) := by
  obtain ⟨F, rest, hF⟩ := List.exists_cons_of_ne_nil (Split_ne_nil s D hD)
  refine ⟨[{ start := 0, «end» := 0, cmd := [] }, { start := 0, «end» := 0, cmd := [] }],
    F, rest, by decide, hF, ?_⟩
  have hloop := fun acc => mapperLoop_natCast sh { start := 0, «end» := 0, cmd := [] }
    (Split s D) (Split s D).length 0 acc (by omega)
  simp only [Nat.cast_zero] at hloop
  simp only [processLine, mappersLoop, hloop]
  rw [hF]
  simp [runCommand_nil, Join]

theorem duplicate_selection_witness :
    ∃ fms F rest, parseFields "1,1".toList = .ok fms ∧
      Split "k=v=w".toList "=".toList = F :: rest ∧
      processLine (fun _ => none) "=".toList fms "k=v=w".toList = .ok (F ++ "=".toList ++ F) :=
  duplicate_selection (fun _ => none) "k=v=w".toList "=".toList (by decide)

/-- C5: only mapped fields are emitted, transformed by the templated command. For every
shell for which `echo XbY` prints `XbY` and a line feed, with delimiter `,` and spec
`2=echo X{}Y`: the spec parses into the single descriptor of field 2, the command run for
the field text `b` is `echo XbY`, its output trimmed is `XbY`, and the output line for the
line content `a,b,c`, as well as the only line printed for the input `a,b,c` followed by a
line feed, is exactly `XbY`. -/
theorem echo_template (sh : GoString → Option GoString)
    (hsh : sh "echo XbY".toList = some "XbY\n".toList) :
    parseFields "2=echo X\x7b\x7dY".toList =
      .ok [{ start := 1, «end» := 1, cmd := "echo X\x7b\x7dY".toList }] ∧
    ReplaceAll "echo X\x7b\x7dY".toList "\x7b\x7d".toList "b".toList = "echo XbY".toList ∧
    TrimSpace "XbY\n".toList = "XbY".toList ∧
    processLine sh ",".toList [{ start := 1, «end» := 1, cmd := "echo X\x7b\x7dY".toList }]
      "a,b,c".toList = .ok "XbY".toList ∧
    main sh ",".toList "2=echo X\x7b\x7dY".toList "a,b,c\n".toList =
      { printed := ["XbY".toList], fault := none } := by
  have hrun : runCommand sh "echo X\x7b\x7dY".toList "b".toList = "XbY".toList := by
    have h1 : ReplaceAll "echo X\x7b\x7dY".toList ['\x7b', '\x7d'] "b".toList
        = "echo XbY".toList := by decide
    have h2 : ¬ ("echo X\x7b\x7dY".toList = []) := by decide
    simp only [runCommand, if_neg h2, h1, hsh]
    decide
  have hline : processLine sh ",".toList
      [{ start := 1, «end» := 1, cmd := "echo X\x7b\x7dY".toList }] "a,b,c".toList
      = .ok (runCommand sh "echo X\x7b\x7dY".toList "b".toList) := rfl
  have hmain : main sh ",".toList "2=echo X\x7b\x7dY".toList "a,b,c\n".toList =
      { printed := [runCommand sh "echo X\x7b\x7dY".toList "b".toList], fault := none } := rfl
  refine ⟨by decide, by decide, by decide, ?_, ?_⟩
  · rw [hline, hrun]
  · rw [hmain, hrun]

theorem echo_template_witness :
    parseFields "2=echo X\x7b\x7dY".toList =
      .ok [{ start := 1, «end» := 1, cmd := "echo X\x7b\x7dY".toList }] ∧
    ReplaceAll "echo X\x7b\x7dY".toList "\x7b\x7d".toList "b".toList = "echo XbY".toList ∧
    TrimSpace "XbY\n".toList = "XbY".toList ∧
    processLine (fun c => if c = "echo XbY".toList then some "XbY\n".toList else none)
      ",".toList [{ start := 1, «end» := 1, cmd := "echo X\x7b\x7dY".toList }]
      "a,b,c".toList = .ok "XbY".toList ∧
    main (fun c => if c = "echo XbY".toList then some "XbY\n".toList else none)
      ",".toList "2=echo X\x7b\x7dY".toList "a,b,c\n".toList =
      { printed := ["XbY".toList], fault := none } :=
  echo_template (fun c => if c = "echo XbY".toList then some "XbY\n".toList else none)
    (by decide)

/-- C6: empty contribution without error. For every field list, a mapper whose start is
at or beyond the number of fields, or whose end is smaller than its start, leaves the
output fields built so far unchanged and raises no fault; the remaining mappers are
processed as if it were absent, and when it is the only mapper the output line is empty. -/
theorem empty_contribution (sh : GoString → Option GoString) (fm : FieldMapper)
    (fields : List GoString)
    (h : (fields.length : Int) ≤ fm.start ∨ fm.«end» < fm.start) :
    (∀ acc, mapperLoop sh fm fields (fields.length + 1) fm.start acc = .ok acc) ∧
    (∀ pre post acc, mappersLoop sh fields (pre ++ fm :: post) acc =
      mappersLoop sh fields (pre ++ post) acc) ∧
    (∀ sep line, Split line sep = fields → processLine sh sep [fm] line = .ok []) := by
  have h1 : ∀ acc, mapperLoop sh fm fields (fields.length + 1) fm.start acc = .ok acc :=
    fun acc => mapperLoop_empty sh fm fields fields.length fm.start acc h
  refine ⟨h1, ?_, ?_⟩
  · intro pre post acc
    rw [mappersLoop_append, mappersLoop_append]
    cases mappersLoop sh fields pre acc with
    | error e => rfl
    | ok x => simp only [mappersLoop, h1]
  · intro sep line hl
    simp only [processLine, hl, mappersLoop, h1, Join]

theorem empty_contribution_witness :
    (∀ acc, mapperLoop (fun _ => none) { start := 98, «end» := 98, cmd := [] }
      ["a".toList, "b".toList, "c".toList] (3 + 1) 98 acc = .ok acc) ∧
    (∀ pre post acc, mappersLoop (fun _ => none) ["a".toList, "b".toList, "c".toList]
        (pre ++ { start := 98, «end» := 98, cmd := [] } :: post) acc =
      mappersLoop (fun _ => none) ["a".toList, "b".toList, "c".toList] (pre ++ post) acc) ∧
    (∀ sep line, Split line sep = ["a".toList, "b".toList, "c".toList] →
      processLine (fun _ => none) sep [{ start := 98, «end» := 98, cmd := [] }] line = .ok []) :=
  empty_contribution (fun _ => none) { start := 98, «end» := 98, cmd := [] }
    ["a".toList, "b".toList, "c".toList] (by decide)

/-- C7: transform errors are isolated per field. When the shell invocation for a
non-empty command template and a field text fails, `runCommand` returns the empty string.
For every shell and every list of mappers with `start >= 0` the line processor emits
exactly one output field for every selected index, in order: the output is `runCommand`
applied one by one to the selected (command, field) pairs of the reference slices. Under
the failing shell each of these output fields is what a shell that differs from it only
at the failing command line gives, or it is empty and its command line is the failing one.
For every mapper list at all, such a shell gives the same number of output fields, equal
position by position except where the failing shell gives the empty string; and the
number of output fields (or the fault) is the same under every shell. -/
theorem transform_errors_isolated (sh : GoString → Option GoString) (cmd input : GoString)
    (hcmd : cmd ≠ []) (hfail : sh (ReplaceAll cmd ['\x7b', '\x7d'] input) = none) :
    runCommand sh cmd input = [] ∧
    (∀ (sh2 : GoString → Option GoString) (fms : List FieldMapper) (fs : List GoString),
      (∀ fm ∈ fms, 0 ≤ fm.start) →
      mappersLoop sh2 fs fms [] =
        .ok ((selectedPairs fs fms).map (fun p => runCommand sh2 p.1 p.2))) ∧
    (∀ (sh2 : GoString → Option GoString) (fms : List FieldMapper) (fs : List GoString),
      (∀ fm ∈ fms, 0 ≤ fm.start) →
      (∀ c, c ≠ ReplaceAll cmd ['\x7b', '\x7d'] input → sh2 c = sh c) →
      ∃ out, mappersLoop sh fs fms [] = .ok out ∧
        List.Forall₂
          (fun p a => a = runCommand sh2 p.1 p.2 ∨
            (a = [] ∧ p.1 ≠ [] ∧
              ReplaceAll p.1 ['\x7b', '\x7d'] p.2 = ReplaceAll cmd ['\x7b', '\x7d'] input))
          (selectedPairs fs fms) out) ∧
    (∀ (sh2 : GoString → Option GoString) (fms : List FieldMapper) (fs : List GoString)
      (out out2 : List GoString),
      (∀ c, c ≠ ReplaceAll cmd ['\x7b', '\x7d'] input → sh2 c = sh c) →
      mappersLoop sh fs fms [] = .ok out → mappersLoop sh2 fs fms [] = .ok out2 →
      List.Forall₂ (fun a b => a = b ∨ a = []) out out2) ∧
    (∀ (sh2 : GoString → Option GoString) (fms : List FieldMapper) (fs : List GoString),
      (mappersLoop sh fs fms []).map List.length =
        (mappersLoop sh2 fs fms []).map List.length) := by
  refine ⟨by simp only [runCommand, if_neg hcmd, hfail], ?_, ?_, ?_, ?_⟩
  · intro sh2 fms fs h
    rw [mappersLoop_pairs sh2 fs fms [] h]; simp
  · intro sh2 fms fs h hsh2
    refine ⟨(selectedPairs fs fms).map (fun p => runCommand sh p.1 p.2), ?_, ?_⟩
    · rw [mappersLoop_pairs sh fs fms [] h]; simp
    · rw [List.forall₂_map_right_iff, List.forall₂_same]
      intro p _
      rcases runCommand_isolated sh sh2 _ hfail hsh2 p with h1 | h1
      · exact Or.inl h1
      · exact Or.inr h1
  · intro sh2 fms fs out out2 hsh2 h1 h2
    have e1 := mappersLoop_select sh fs fms []
    have e2 := mappersLoop_select sh2 fs fms []
    simp only [List.map_nil] at e1 e2
    rw [e1] at h1
    rw [e2] at h2
    cases hsel : selectAll fs fms [] with
    | error e => rw [hsel] at h1; cases h1
    | ok sel =>
      rw [hsel] at h1 h2
      simp only [Except.map, Except.ok.injEq] at h1 h2
      subst h1 h2
      rw [List.forall₂_map_left_iff, List.forall₂_map_right_iff, List.forall₂_same]
      intro p _
      rcases runCommand_isolated sh sh2 _ hfail hsh2 p with h | h
      · exact Or.inl h
      · exact Or.inr h.1
  · intro sh2 fms fs
    have e1 := mappersLoop_select sh fs fms []
    have e2 := mappersLoop_select sh2 fs fms []
    simp only [List.map_nil] at e1 e2
    rw [e1, e2]
    cases selectAll fs fms [] with
    | error e => rfl
    | ok sel => simp [Except.map]

theorem transform_errors_isolated_witness :
    runCommand (fun _ => none) "false".toList "x".toList = [] ∧
    (∀ (sh2 : GoString → Option GoString) (fms : List FieldMapper) (fs : List GoString),
      (∀ fm ∈ fms, 0 ≤ fm.start) →
      mappersLoop sh2 fs fms [] =
        .ok ((selectedPairs fs fms).map (fun p => runCommand sh2 p.1 p.2))) ∧
    (∀ (sh2 : GoString → Option GoString) (fms : List FieldMapper) (fs : List GoString),
      (∀ fm ∈ fms, 0 ≤ fm.start) →
      (∀ c, c ≠ ReplaceAll "false".toList ['\x7b', '\x7d'] "x".toList →
        sh2 c = (fun _ => none) c) →
      ∃ out, mappersLoop (fun _ => none) fs fms [] = .ok out ∧
        List.Forall₂
          (fun p a => a = runCommand sh2 p.1 p.2 ∨
            (a = [] ∧ p.1 ≠ [] ∧
              ReplaceAll p.1 ['\x7b', '\x7d'] p.2 =
                ReplaceAll "false".toList ['\x7b', '\x7d'] "x".toList))
          (selectedPairs fs fms) out) ∧
    (∀ (sh2 : GoString → Option GoString) (fms : List FieldMapper) (fs : List GoString)
      (out out2 : List GoString),
      (∀ c, c ≠ ReplaceAll "false".toList ['\x7b', '\x7d'] "x".toList →
        sh2 c = (fun _ => none) c) →
      mappersLoop (fun _ => none) fs fms [] = .ok out → mappersLoop sh2 fs fms [] = .ok out2 →
      List.Forall₂ (fun a b => a = b ∨ a = []) out out2) ∧
    (∀ (sh2 : GoString → Option GoString) (fms : List FieldMapper) (fs : List GoString),
      (mappersLoop (fun _ => none) fs fms []).map List.length =
        (mappersLoop sh2 fs fms []).map List.length) :=
  transform_errors_isolated (fun _ => none) "false".toList "x".toList (by decide) rfl

/-- C8: single-index tokens. For every integer `N` with `1 <= N <= MaxInt`, the token
that is the decimal numeral of `N` (it contains no `=`) is parsed into one descriptor
with `start = N-1`, `end = N-1` and an empty command. -/
theorem single_index_token (N : Nat) (h1 : 1 ≤ N) (hN : (N : Int) ≤ MaxInt) :
    '=' ∉ (Nat.repr N).toList ∧
    parseToken (Nat.repr N).toList =
      .ok { start := (N : Int) - 1, «end» := (N : Int) - 1, cmd := [] } ∧
    parseFields (Nat.repr N).toList =
      .ok [{ start := (N : Int) - 1, «end» := (N : Int) - 1, cmd := [] }] := by
  have _ := h1
  refine ⟨numeral_not_mem N '=' rfl, parseToken_numeral N hN, ?_⟩
  rw [parseFields_single _ (numeral_not_mem N ',' rfl), parseToken_numeral N hN]
  rfl

theorem single_index_token_witness :
    '=' ∉ (Nat.repr 99).toList ∧
    parseToken (Nat.repr 99).toList =
      .ok { start := ((99 : Nat) : Int) - 1, «end» := ((99 : Nat) : Int) - 1, cmd := [] } ∧
    parseFields (Nat.repr 99).toList =
      .ok [{ start := ((99 : Nat) : Int) - 1, «end» := ((99 : Nat) : Int) - 1, cmd := [] }] :=
  single_index_token 99 (by decide) (by decide)

/-- C9: range tokens. For all integers `N` and `M` in `1..MaxInt`, the token `N-M`
(decimal numerals) is parsed into one descriptor with `start = N-1` and `end = M-1`,
also when `M < N`: the range is neither normalised nor rejected. -/
theorem range_token (N M : Nat) (hN1 : 1 ≤ N) (hN : (N : Int) ≤ MaxInt)
    (hM1 : 1 ≤ M) (hM : (M : Int) ≤ MaxInt) :
    parseToken ((Nat.repr N).toList ++ '-' :: (Nat.repr M).toList) =
      .ok { start := (N : Int) - 1, «end» := (M : Int) - 1, cmd := [] } ∧
    parseFields ((Nat.repr N).toList ++ '-' :: (Nat.repr M).toList) =
      .ok [{ start := (N : Int) - 1, «end» := (M : Int) - 1, cmd := [] }] := by
  have _ := hN1
  have _ := hM1
  refine ⟨parseToken_range N M hN hM, ?_⟩
  have hc : ',' ∉ (Nat.repr N).toList ++ '-' :: (Nat.repr M).toList := by
    intro h
    rcases List.mem_append.1 h with h | h
    · exact numeral_not_mem N ',' rfl h
    · rcases List.mem_cons.1 h with h | h
      · revert h; decide
      · exact numeral_not_mem M ',' rfl h
  rw [parseFields_single _ hc, parseToken_range N M hN hM]
  rfl

theorem range_token_witness :
    parseToken ((Nat.repr 3).toList ++ '-' :: (Nat.repr 1).toList) =
      .ok { start := ((3 : Nat) : Int) - 1, «end» := ((1 : Nat) : Int) - 1, cmd := [] } ∧
    parseFields ((Nat.repr 3).toList ++ '-' :: (Nat.repr 1).toList) =
      .ok [{ start := ((3 : Nat) : Int) - 1, «end» := ((1 : Nat) : Int) - 1, cmd := [] }] :=
  range_token 3 1 (by decide) (by decide) (by decide) (by decide)

/-- C10: open-ended tokens. For every integer `N` in `1..MaxInt`, the token `N-` is
parsed into one descriptor with `start = N-1` and `end` the open-end sentinel, and with
that descriptor the line processor selects, for every field list (of a length a Go slice
can have), exactly the fields from index `N-1` through the last one. -/
theorem open_ended_token (N : Nat) (h1 : 1 ≤ N) (hN : (N : Int) ≤ MaxInt) :
    parseFields ((Nat.repr N).toList ++ ['-']) =
      .ok [{ start := (N : Int) - 1, «end» := endField, cmd := [] }] ∧
    (∀ (sh : GoString → Option GoString) (fields : List GoString),
      (fields.length : Int) ≤ MaxInt →
      mappersLoop sh fields [{ start := (N : Int) - 1, «end» := endField, cmd := [] }] [] =
        .ok (fields.drop (N - 1))) ∧
    (∀ (sh : GoString → Option GoString) (sep line : GoString),
      ((Split line sep).length : Int) ≤ MaxInt →
      processLine sh sep [{ start := (N : Int) - 1, «end» := endField, cmd := [] }] line =
        .ok (Join ((Split line sep).drop (N - 1)) sep)) := by
  have hc : ',' ∉ (Nat.repr N).toList ++ ['-'] := by
    intro h
    rcases List.mem_append.1 h with h | h
    · exact numeral_not_mem N ',' rfl h
    · revert h; decide
  have hsel : ∀ (sh : GoString → Option GoString) (fields : List GoString),
      (fields.length : Int) ≤ MaxInt →
      mappersLoop sh fields [{ start := (N : Int) - 1, «end» := endField, cmd := [] }] [] =
        .ok (fields.drop (N - 1)) := by
    intro sh fields hlen
    have hcast : (N : Int) - 1 = ((N - 1 : Nat) : Int) := by omega
    rw [hcast]
    have hloop := mapperLoop_natCast sh
      { start := ((N - 1 : Nat) : Int), «end» := endField, cmd := [] }
      fields fields.length (N - 1) [] (by omega)
    simp only [mappersLoop]
    rw [hloop]
    have htake : (fields.drop (N - 1)).length ≤ (endField + 1 - ((N - 1 : Nat) : Int)).toNat := by
      simp only [endField, MaxInt, List.length_drop] at hlen ⊢
      omega
    simp only [List.nil_append]
    rw [List.take_of_length_le htake]
    have hid : List.map (runCommand sh []) (fields.drop (N - 1)) = fields.drop (N - 1) := by
      conv_rhs => rw [← List.map_id (fields.drop (N - 1))]
      exact List.map_congr_left (fun x _ => runCommand_nil sh x)
    rw [hid]
  refine ⟨?_, hsel, ?_⟩
  · rw [parseFields_single _ hc, parseToken_open N hN]
    rfl
  · intro sh sep line hlen
    simp only [processLine, hsel sh _ hlen]

theorem open_ended_token_witness :
    parseFields ((Nat.repr 2).toList ++ ['-']) =
      .ok [{ start := ((2 : Nat) : Int) - 1, «end» := endField, cmd := [] }] ∧
    (∀ (sh : GoString → Option GoString) (fields : List GoString),
      (fields.length : Int) ≤ MaxInt →
      mappersLoop sh fields [{ start := ((2 : Nat) : Int) - 1, «end» := endField, cmd := [] }] [] =
        .ok (fields.drop (2 - 1))) ∧
    (∀ (sh : GoString → Option GoString) (sep line : GoString),
      ((Split line sep).length : Int) ≤ MaxInt →
      processLine sh sep [{ start := ((2 : Nat) : Int) - 1, «end» := endField, cmd := [] }] line =
        .ok (Join ((Split line sep).drop (2 - 1)) sep)) :=
  open_ended_token 2 (by decide) (by decide)

/-- C11: multiple dashes are rejected. For every token that starts with an index portion
`idx` (a run of digits and dashes) holding two or more dashes, followed by nothing or by
`=` and a command, parsing the token fails with the fatal error of line 71; so does
`parseFields` on that token alone (when the command has no comma), and `parseFields` fails
on every comma-separated spec that has this token among its tokens. -/
theorem multiple_dashes_rejected (idx rest : GoString)
    (hidx : ∀ c ∈ idx, isIndexChar c = true) (hd : 2 ≤ idx.count '-')
    (hrest : rest = [] ∨ ∃ cmd, rest = '=' :: cmd) :
    parseToken (idx ++ rest) = .error (.fatalNotRange idx) ∧
    (',' ∉ rest → parseFields (idx ++ rest) = .error (.fatalNotRange idx)) ∧
    (∀ pre post : List GoString, (∀ t ∈ pre ++ (idx ++ rest) :: post, ',' ∉ t) →
      ∃ e, parseFields (Join (pre ++ (idx ++ rest) :: post) [',']) = .error e) := by
  have htok := parseToken_dashes idx rest hidx hd hrest
  refine ⟨htok, ?_, ?_⟩
  · intro hc
    have hc2 : ',' ∉ idx ++ rest := by
      intro hm
      rcases List.mem_append.1 hm with h | h
      · have := hidx ',' h
        revert this; decide
      · exact hc h
    rw [parseFields_single _ hc2, htok]
    rfl
  · intro pre post hcomma
    rw [parseFields_Join _ (by simp) hcomma]
    exact parseTokens_error pre post _ [] _ htok

theorem multiple_dashes_rejected_witness :
    parseToken ("1-2-3".toList ++ "=cmd".toList) = .error (.fatalNotRange "1-2-3".toList) ∧
    (',' ∉ "=cmd".toList →
      parseFields ("1-2-3".toList ++ "=cmd".toList) = .error (.fatalNotRange "1-2-3".toList)) ∧
    (∀ pre post : List GoString,
      (∀ t ∈ pre ++ ("1-2-3".toList ++ "=cmd".toList) :: post, ',' ∉ t) →
      ∃ e, parseFields (Join (pre ++ ("1-2-3".toList ++ "=cmd".toList) :: post) [',']) =
        .error e) :=
  multiple_dashes_rejected "1-2-3".toList "=cmd".toList (by decide) (by decide)
    (Or.inr ⟨"cmd".toList, rfl⟩)

/-- C12 (defect of the code): the pattern is not anchored, so the match is searched
anywhere in the token. The tokens `x1`, `1x=cmd` and `a=1` do not have the form of the
grammar and are accepted all the same, each as the plain field 1 (for `1x=cmd` the command
is dropped); the tokens `-3` and the empty token are rejected. -/
theorem unanchored_match_accepts :
    parseFields "x1".toList = .ok [{ start := 0, «end» := 0, cmd := [] }] ∧
    parseFields "1x=cmd".toList = .ok [{ start := 0, «end» := 0, cmd := [] }] ∧
    parseFields "a=1".toList = .ok [{ start := 0, «end» := 0, cmd := [] }] ∧
    parseFields "-3".toList = .error (.fatalAtoi []) ∧
    parseFields [] = .error (.fatalNoMatch []) := by
  decide

/-- C13 (defect of the code): the command stops at the first line feed. For the token
`1=a`, line feed, `b` the parsed command is `a`, not the text after the `=`; the `.` of the
pattern does not match a line feed. -/
theorem command_cut_at_line_feed :
    parseFields "1=a\nb".toList = .ok [{ start := 0, «end» := 0, cmd := "a".toList }] ∧
    "a".toList ≠ "a\nb".toList ∧ ',' ∉ "a\nb".toList := by
  decide

/-- C14: token order is preserved. For every non-empty list of comma-free tokens, the
spec made of the tokens joined by commas parses to `fms` exactly when `fms` has one
descriptor per token, the k-th being the descriptor of the k-th token parsed alone; so it
is accepted exactly when every token is accepted alone. In the line processor the output
of a mapper list `a ++ b` is the output of `a` followed by the output of `b`. -/
theorem token_order_preserved (tokens : List GoString) (hne : tokens ≠ [])
    (hc : ∀ t ∈ tokens, ',' ∉ t) :
    (∀ fms, parseFields (Join tokens [',']) = .ok fms ↔
      List.Forall₂ (fun t fm => parseFields t = .ok [fm]) tokens fms) ∧
    (∀ fms, parseFields (Join tokens [',']) = .ok fms →
      fms.length = tokens.length ∧
      ∀ (k : Nat) (h1 : k < tokens.length) (h2 : k < fms.length),
        parseFields (tokens.get ⟨k, h1⟩) = .ok [fms.get ⟨k, h2⟩]) ∧
    ((∃ fms, parseFields (Join tokens [',']) = .ok fms) ↔
      ∀ t ∈ tokens, ∃ fm, parseFields t = .ok [fm]) ∧
    (∀ (sh : GoString → Option GoString) (fields : List GoString)
      (a b : List FieldMapper) (out : List GoString),
      mappersLoop sh fields (a ++ b) [] = .ok out ↔
        ∃ out1 out2, mappersLoop sh fields a [] = .ok out1 ∧
          mappersLoop sh fields b [] = .ok out2 ∧ out = out1 ++ out2) := by
  have hall : ∀ fms, parseFields (Join tokens [',']) = .ok fms ↔
      List.Forall₂ (fun t fm => parseFields t = .ok [fm]) tokens fms := by
    intro fms
    rw [parseFields_Join tokens hne hc, parseTokens_ok, ← forall₂_tokens tokens fms hc]
    simp only [List.nil_append, exists_eq_right']
  refine ⟨hall, ?_, ?_, fun sh fields a b out => mappersLoop_concat sh fields a b out⟩
  · intro fms hfms
    have h2 := List.forall₂_iff_get.1 ((hall fms).1 hfms)
    exact ⟨h2.1.symm, fun k h1 h3 => h2.2 k h1 h3⟩
  · constructor
    · rintro ⟨fms, hfms⟩
      exact forall₂_mem_left tokens fms ((hall fms).1 hfms)
    · intro h
      obtain ⟨fms, hfms⟩ := exists_forall₂ tokens h
      exact ⟨fms, (hall fms).2 hfms⟩

theorem token_order_preserved_witness :
    (∀ fms, parseFields (Join ["3".toList, "1-2".toList, "2-=tr a b".toList] [',']) = .ok fms ↔
      List.Forall₂ (fun t fm => parseFields t = .ok [fm])
        ["3".toList, "1-2".toList, "2-=tr a b".toList] fms) ∧
    (∀ fms, parseFields (Join ["3".toList, "1-2".toList, "2-=tr a b".toList] [',']) = .ok fms →
      fms.length = ["3".toList, "1-2".toList, "2-=tr a b".toList].length ∧
      ∀ (k : Nat) (h1 : k < ["3".toList, "1-2".toList, "2-=tr a b".toList].length)
        (h2 : k < fms.length),
        parseFields (["3".toList, "1-2".toList, "2-=tr a b".toList].get ⟨k, h1⟩) =
          .ok [fms.get ⟨k, h2⟩]) ∧
    ((∃ fms, parseFields (Join ["3".toList, "1-2".toList, "2-=tr a b".toList] [',']) =
        .ok fms) ↔
      ∀ t ∈ ["3".toList, "1-2".toList, "2-=tr a b".toList], ∃ fm, parseFields t = .ok [fm]) ∧
    (∀ (sh : GoString → Option GoString) (fields : List GoString)
      (a b : List FieldMapper) (out : List GoString),
      mappersLoop sh fields (a ++ b) [] = .ok out ↔
        ∃ out1 out2, mappersLoop sh fields a [] = .ok out1 ∧
          mappersLoop sh fields b [] = .ok out2 ∧ out = out1 ++ out2) :=
  token_order_preserved ["3".toList, "1-2".toList, "2-=tr a b".toList] (by decide) (by decide)

/-- C15 (defect of the code): the index 0 is accepted and gives a negative start. The
spec `0` is parsed without error into the descriptor with `start = -1` and `end = -1`;
no check that the index is at least 1 precedes the subtraction of line 75. -/
theorem zero_index_accepted :
    parseFields "0".toList = .ok [{ start := -1, «end» := -1, cmd := [] }] ∧
    ∃ fms fm, parseFields "0".toList = .ok fms ∧ fm ∈ fms ∧ fm.start < 0 := by
  refine ⟨by decide, [{ start := -1, «end» := -1, cmd := [] }],
    { start := -1, «end» := -1, cmd := [] }, by decide, by simp, by decide⟩

/-- C16: cut equivalence for plain field lists. With the mappers parsed from the spec
`1,2` and a one-character delimiter `X`, for every line content `s` the output line is what
`cut -f 1,2 -d X` prints for `s`: `s` itself when `s` does not contain `X`, otherwise
the first two `X`-separated fields of `s` joined by `X`. -/
theorem cut_equivalence (sh : GoString → Option GoString) (X : Char) (s : GoString) :
    ∃ fms, parseFields "1,2".toList = .ok fms ∧
      processLine sh [X] fms s = .ok (cutFields12 X s) := by
  refine ⟨[{ start := 0, «end» := 0, cmd := [] }, { start := 1, «end» := 1, cmd := [] }],
    by decide, ?_⟩
  have h0 := fun acc => mapperLoop_natCast sh { start := 0, «end» := 0, cmd := [] }
    (Split s [X]) (Split s [X]).length 0 acc (by omega)
  have h1 := fun acc => mapperLoop_natCast sh { start := 1, «end» := 1, cmd := [] }
    (Split s [X]) (Split s [X]).length 1 acc (by omega)
  simp only [Nat.cast_zero, Nat.cast_one] at h0 h1
  simp only [processLine, mappersLoop, h0, h1]
  by_cases hX : X ∈ s
  · obtain ⟨a, b, hab, ha, hta, htb⟩ := exists_first X s hX
    obtain ⟨rest, hrest⟩ := Split_head X b
    have hsplit : Split s [X] = a :: b.takeWhile (fun c => c != X) :: rest := by
      conv_lhs => rw [hab]
      rw [Split_cons X a b ha, hrest]
    rw [hsplit]
    simp only [cutFields12, if_pos hX, ← hta, ← htb]
    simp [runCommand_nil, Join]
  · rw [Split_not_mem X s hX]
    simp only [cutFields12, if_neg hX]
    simp [runCommand_nil, Join]

/-- C17: terminator-only line. For the raw line made of the line terminator alone the
strip step returns the line unchanged; with the pass-through mappers of the spec `1-` and
every delimiter, the line processor applied to that one-byte string returns the same
one-byte string, and the run on the input made of that line prints exactly it. -/
theorem terminator_only_line (sh : GoString → Option GoString) (D : GoString) :
    stripNewline "\n".toList = "\n".toList ∧
    (∃ fms, parseFields "1-".toList = .ok fms ∧
      processLine sh D fms (stripNewline "\n".toList) = .ok "\n".toList) ∧
    main sh D "1-".toList "\n".toList = { printed := ["\n".toList], fault := none } := by
  have hp : parseFields "1-".toList = .ok [{ start := 0, «end» := endField, cmd := [] }] := by
    decide
  have hs : stripNewline "\n".toList = "\n".toList := by decide
  have hl := processLine_newline sh D
  refine ⟨hs, ⟨_, hp, by rw [hs]; exact hl⟩, ?_⟩
  have hr1 : ReadString '\n' ['\n'] = (['\n'], [], false) := by decide
  have hr2 : ReadString '\n' [] = ([], [], true) := by decide
  have hs2 : stripNewline ['\n'] = ['\n'] := by decide
  simp only [main, hp]
  show readLoop sh D _ 2 ['\n'] [] = _
  simp only [readLoop, hr1, hs2, hl, hr2]
  simp

/-- C18: selection equals a reference slice definition. For every field list `fs` and
every list of mappers with `start >= 0` and empty commands, the output field list is the
concatenation, in mapper order, of the slices `fs[start .. min(end, len(fs)-1)]` (empty
when `start` exceeds that bound); it has at most `len(mappers) * len(fs)` fields, and the
slice of an open-ended mapper is `fs[start ..]` (for a field list of a length a Go slice
can have). -/
theorem selection_is_slices (sh : GoString → Option GoString) (fs : List GoString)
    (fms : List FieldMapper) (h : ∀ fm ∈ fms, 0 ≤ fm.start ∧ fm.cmd = []) :
    mappersLoop sh fs fms [] = .ok ((fms.map (sliceRef fs)).flatten) ∧
    ((fms.map (sliceRef fs)).flatten).length ≤ fms.length * fs.length ∧
    (∀ fm ∈ fms, fm.«end» = endField → (fs.length : Int) ≤ MaxInt →
      sliceRef fs fm = fs.drop fm.start.toNat) := by
  refine ⟨?_, slices_length_le fs fms, ?_⟩
  · rw [mappersLoop_slices sh fs fms [] h]; simp
  · intro fm hfm he hlen
    exact sliceRef_open fs fm (h fm hfm).1 he hlen

theorem selection_is_slices_witness :
    mappersLoop (fun _ => none) ["a".toList, "b".toList, "c".toList]
      [{ start := 1, «end» := endField, cmd := [] }, { start := 0, «end» := 1, cmd := [] },
        { start := 2, «end» := 0, cmd := [] }] [] =
      .ok (([{ start := 1, «end» := endField, cmd := [] }, { start := 0, «end» := 1, cmd := [] },
        { start := 2, «end» := 0, cmd := [] }].map
          (sliceRef ["a".toList, "b".toList, "c".toList])).flatten) ∧
    (([{ start := 1, «end» := endField, cmd := [] }, { start := 0, «end» := 1, cmd := [] },
        { start := 2, «end» := 0, cmd := [] }].map
          (sliceRef ["a".toList, "b".toList, "c".toList])).flatten).length ≤
      [({ start := 1, «end» := endField, cmd := [] } : FieldMapper),
        { start := 0, «end» := 1, cmd := [] },
        { start := 2, «end» := 0, cmd := [] }].length *
        ["a".toList, "b".toList, "c".toList].length ∧
    (∀ fm ∈ [({ start := 1, «end» := endField, cmd := [] } : FieldMapper),
        { start := 0, «end» := 1, cmd := [] }, { start := 2, «end» := 0, cmd := [] }],
      fm.«end» = endField → ((["a".toList, "b".toList, "c".toList].length : Nat) : Int) ≤ MaxInt →
      sliceRef ["a".toList, "b".toList, "c".toList] fm =
        ["a".toList, "b".toList, "c".toList].drop fm.start.toNat) :=
  selection_is_slices (fun _ => none) ["a".toList, "b".toList, "c".toList]
    [{ start := 1, «end» := endField, cmd := [] }, { start := 0, «end» := 1, cmd := [] },
      { start := 2, «end» := 0, cmd := [] }] (by decide)

/-- C19 (defect of the code): a field access out of range. The spec `0` is accepted by
`parseFields`; on the input line `a` (with its line feed) and the tab delimiter the loop of
line 153 starts at `i = -1`, passes the test `i <= fm.end && i < len(fields)` and reads
`fields[-1]`: the run stops with an index-out-of-range panic and prints nothing. -/
theorem zero_index_panics :
    parseFields "0".toList = .ok [{ start := -1, «end» := -1, cmd := [] }] ∧
    main (fun _ => none) "\t".toList "0".toList "a\n".toList =
      { printed := [], fault := some (.indexOutOfRange (-1) 1) } := by
  decide

/-- C20: the open-end sentinel cannot be produced by a bounded token. For every token
that is accepted, `start` is below the sentinel, `end` is at most the sentinel, and `end`
is the sentinel exactly when the index portion of the token (group 1 of the match) ends
with a dash. In particular an accepted single index `N` or range `N-M` has `end` strictly
below the sentinel, and an accepted `N-` has `end` equal to it. -/
theorem sentinel_only_from_open_range (f : GoString) (fm : FieldMapper)
    (h : parseToken f = .ok fm) :
    (fm.start < endField ∧ fm.«end» ≤ endField ∧
      ∃ g0 g1 g2 g3, FindStringSubmatch f = [g0, g1, g2, g3] ∧
        (fm.«end» = endField ↔ g1.getLast? = some '-')) ∧
    (∀ (N : Nat) (fm2 : FieldMapper), parseFields (Nat.repr N).toList = .ok [fm2] →
      fm2.start < endField ∧ fm2.«end» < endField) ∧
    (∀ (N M : Nat) (fm2 : FieldMapper),
      parseFields ((Nat.repr N).toList ++ '-' :: (Nat.repr M).toList) = .ok [fm2] →
      fm2.start < endField ∧ fm2.«end» < endField) ∧
    (∀ (N : Nat) (fm2 : FieldMapper), parseFields ((Nat.repr N).toList ++ ['-']) = .ok [fm2] →
      fm2.start < endField ∧ fm2.«end» = endField) := by
  have hdigit : ∀ (N : Nat) (c : Char), c ∈ (Nat.repr N).toList → isIndexChar c = true :=
    fun N c hc => (isDigit_facts c ((numeral_spec N).2.1 c hc)).1
  have hlastN : ∀ N : Nat, (Nat.repr N).toList.getLast? ≠ some '-' := by
    intro N hl
    have hm := List.mem_of_getLast?_eq_some hl
    exact numeral_not_mem N '-' rfl hm
  refine ⟨parseToken_end f fm h, ?_, ?_, ?_⟩
  · intro N fm2 hp
    have hc : ',' ∉ (Nat.repr N).toList := numeral_not_mem N ',' rfl
    obtain ⟨hs, he, g0, g1, g2, g3, hg, hiff⟩ :=
      parseToken_end _ fm2 ((parseFields_token _ fm2 hc).1 hp)
    rw [FindStringSubmatch_index _ (numeral_spec N).1 (hdigit N)] at hg
    simp only [List.cons.injEq, and_true] at hg
    obtain ⟨-, hg1, -, -⟩ := hg
    subst hg1
    refine ⟨hs, lt_of_le_of_ne he ?_⟩
    intro heq
    exact hlastN N (hiff.1 heq)
  · intro N M fm2 hp
    have hidx : ∀ c ∈ (Nat.repr N).toList ++ '-' :: (Nat.repr M).toList,
        isIndexChar c = true := by
      intro c hc
      rcases List.mem_append.1 hc with h1 | h1
      · exact hdigit N c h1
      · rcases List.mem_cons.1 h1 with h2 | h2
        · subst h2; rfl
        · exact hdigit M c h2
    have hc : ',' ∉ (Nat.repr N).toList ++ '-' :: (Nat.repr M).toList := by
      intro hm
      have := hidx ',' hm
      revert this; decide
    obtain ⟨hs, he, g0, g1, g2, g3, hg, hiff⟩ :=
      parseToken_end _ fm2 ((parseFields_token _ fm2 hc).1 hp)
    rw [FindStringSubmatch_index _ (by simp) hidx] at hg
    simp only [List.cons.injEq, and_true] at hg
    obtain ⟨-, hg1, -, -⟩ := hg
    subst hg1
    refine ⟨hs, lt_of_le_of_ne he ?_⟩
    intro heq
    have hl := hiff.1 heq
    rw [show (Nat.repr N).toList ++ '-' :: (Nat.repr M).toList =
      ((Nat.repr N).toList ++ ['-']) ++ (Nat.repr M).toList by simp,
      List.getLast?_append_of_ne_nil _ (numeral_spec M).1] at hl
    exact hlastN M hl
  · intro N fm2 hp
    have hidx : ∀ c ∈ (Nat.repr N).toList ++ ['-'], isIndexChar c = true := by
      intro c hc
      rcases List.mem_append.1 hc with h1 | h1
      · exact hdigit N c h1
      · simp only [List.mem_singleton] at h1; subst h1; rfl
    have hc : ',' ∉ (Nat.repr N).toList ++ ['-'] := by
      intro hm
      have := hidx ',' hm
      revert this; decide
    obtain ⟨hs, he, g0, g1, g2, g3, hg, hiff⟩ :=
      parseToken_end _ fm2 ((parseFields_token _ fm2 hc).1 hp)
    rw [FindStringSubmatch_index _ (by simp) hidx] at hg
    simp only [List.cons.injEq, and_true] at hg
    obtain ⟨-, hg1, -, -⟩ := hg
    subst hg1
    exact ⟨hs, hiff.2 (by simp)⟩

theorem sentinel_only_from_open_range_witness :
    (({ start := 1, «end» := 4, cmd := "date".toList } : FieldMapper).start < endField ∧
      ({ start := 1, «end» := 4, cmd := "date".toList } : FieldMapper).«end» ≤ endField ∧
      ∃ g0 g1 g2 g3, FindStringSubmatch "2-5=date".toList = [g0, g1, g2, g3] ∧
        (({ start := 1, «end» := 4, cmd := "date".toList } : FieldMapper).«end» = endField ↔
          g1.getLast? = some '-')) ∧
    (∀ (N : Nat) (fm2 : FieldMapper), parseFields (Nat.repr N).toList = .ok [fm2] →
      fm2.start < endField ∧ fm2.«end» < endField) ∧
    (∀ (N M : Nat) (fm2 : FieldMapper),
      parseFields ((Nat.repr N).toList ++ '-' :: (Nat.repr M).toList) = .ok [fm2] →
      fm2.start < endField ∧ fm2.«end» < endField) ∧
    (∀ (N : Nat) (fm2 : FieldMapper), parseFields ((Nat.repr N).toList ++ ['-']) = .ok [fm2] →
      fm2.start < endField ∧ fm2.«end» = endField) :=
  sentinel_only_from_open_range "2-5=date".toList
    { start := 1, «end» := 4, cmd := "date".toList } (by decide)

end Cutx
